import Mathlib

/-!
Verification of the `fson` direct-to-buffer JSON serializer.

The Go source is shallowly embedded: byte buffers become `List Nat` (each
entry one byte value), the fluent builder methods become functions on the
buffer, and the value encoders (`appendString`, `appendFloat`, `appendArray`,
`strconv.AppendInt`-style digit rendering) are translated function by
function.  A byte-level JSON validator and a UTF-8 validator formalise the
spec-side notions "parses as valid JSON" and "is valid UTF-8".
-/

namespace Fson

/-! ## UTF-8 decoding, embedding Go `unicode/utf8.DecodeRuneInString` -/

/-- Whether a byte is a UTF-8 continuation byte (0x80..0xBF). -/
def isCont (b : Nat) : Bool := 0x80 ≤ b && b ≤ 0xBF

/-- Acceptable ranges for the second byte of a 3-byte UTF-8 sequence,
indexed by the leading byte, as in Go `unicode/utf8` (excludes surrogates
via the 0xED row and overlong forms via the 0xE0 row). -/
def accept3 (b0 b1 : Nat) : Bool :=
  if b0 = 0xE0 then 0xA0 ≤ b1 && b1 ≤ 0xBF
  else if b0 = 0xED then 0x80 ≤ b1 && b1 ≤ 0x9F
  else isCont b1

/-- Acceptable ranges for the second byte of a 4-byte UTF-8 sequence,
indexed by the leading byte (excludes overlong forms and code points
above U+10FFFF). -/
def accept4 (b0 b1 : Nat) : Bool :=
  if b0 = 0xF0 then 0x90 ≤ b1 && b1 ≤ 0xBF
  else if b0 = 0xF4 then 0x80 ≤ b1 && b1 ≤ 0x8F
  else isCont b1

/-- Embedding of Go `utf8.DecodeRuneInString`: decodes the first rune of a
byte sequence, returning the code point and the number of bytes consumed.
Invalid or truncated encodings yield `(0xFFFD, 1)`; the empty input yields
`(0xFFFD, 0)`, exactly as in Go. -/
def decodeRune : List Nat → Nat × Nat
  | [] => (0xFFFD, 0)
  | b0 :: rest =>
    if b0 < 0x80 then (b0, 1)
    else if b0 < 0xC2 then (0xFFFD, 1)
    else if b0 ≤ 0xDF then
      match rest with
      | b1 :: _ =>
        if isCont b1 then ((b0 - 0xC0) * 64 + (b1 - 0x80), 2) else (0xFFFD, 1)
      | [] => (0xFFFD, 1)
    else if b0 ≤ 0xEF then
      match rest with
      | b1 :: b2 :: _ =>
        if accept3 b0 b1 && isCont b2 then
          ((b0 - 0xE0) * 4096 + (b1 - 0x80) * 64 + (b2 - 0x80), 3)
        else (0xFFFD, 1)
      | _ => (0xFFFD, 1)
    else if b0 ≤ 0xF4 then
      match rest with
      | b1 :: b2 :: b3 :: _ =>
        if accept4 b0 b1 && isCont b2 && isCont b3 then
          ((b0 - 0xF0) * 262144 + (b1 - 0x80) * 4096 + (b2 - 0x80) * 64 + (b3 - 0x80), 4)
        else (0xFFFD, 1)
      | _ => (0xFFFD, 1)
    else (0xFFFD, 1)

/-- The decoded size is at least 1 on nonempty input. -/
theorem decodeRune_size_pos (s : List Nat) (h : s ≠ []) : 1 ≤ (decodeRune s).2 := by
  match s with
  | b0 :: rest =>
    simp only [decodeRune]
    repeat' split
    all_goals simp

/-- The decoded size never exceeds the input length. -/
theorem decodeRune_size_le (s : List Nat) : (decodeRune s).2 ≤ s.length := by
  match s with
  | [] => simp [decodeRune]
  | [b0] =>
    simp only [decodeRune]
    repeat' split
    all_goals simp
  | [b0, b1] =>
    simp only [decodeRune]
    repeat' split
    all_goals simp
  | [b0, b1, b2] =>
    simp only [decodeRune]
    repeat' split
    all_goals simp
  | b0 :: b1 :: b2 :: b3 :: r =>
    simp only [decodeRune]
    repeat' split
    all_goals simp

/-- Decoding an ASCII byte. -/
theorem decodeRune_ascii (b0 : Nat) (rest : List Nat) (h : b0 < 0x80) :
    decodeRune (b0 :: rest) = (b0, 1) := by
  simp [decodeRune, h]

/-- Bytes 0x80..0xC1 never start a valid encoding. -/
theorem decodeRune_low (b0 : Nat) (rest : List Nat) (h1 : 0x80 ≤ b0) (h2 : b0 < 0xC2) :
    decodeRune (b0 :: rest) = (0xFFFD, 1) := by
  simp only [decodeRune]
  rw [if_neg (by omega), if_pos h2]

/-- Bytes above 0xF4 never start a valid encoding. -/
theorem decodeRune_high (b0 : Nat) (rest : List Nat) (h1 : 0xF4 < b0) :
    decodeRune (b0 :: rest) = (0xFFFD, 1) := by
  simp only [decodeRune]
  rw [if_neg (by omega), if_neg (by omega), if_neg (by omega), if_neg (by omega),
    if_neg (by omega)]

/-- Decoding from a 2-byte leading byte. -/
theorem decodeRune_two (b0 b1 : Nat) (t : List Nat) (h1 : 0xC2 ≤ b0) (h2 : b0 ≤ 0xDF) :
    decodeRune (b0 :: b1 :: t) =
      if isCont b1 then ((b0 - 0xC0) * 64 + (b1 - 0x80), 2) else (0xFFFD, 1) := by
  simp only [decodeRune]
  rw [if_neg (by omega), if_neg (by omega), if_pos h2]

/-- Truncated input after a 2-byte leading byte. -/
theorem decodeRune_two_nil (b0 : Nat) (h1 : 0xC2 ≤ b0) (h2 : b0 ≤ 0xDF) :
    decodeRune [b0] = (0xFFFD, 1) := by
  simp only [decodeRune]
  rw [if_neg (by omega), if_neg (by omega), if_pos h2]

/-- Decoding from a 3-byte leading byte. -/
theorem decodeRune_three (b0 b1 b2 : Nat) (t : List Nat) (h1 : 0xDF < b0) (h2 : b0 ≤ 0xEF) :
    decodeRune (b0 :: b1 :: b2 :: t) =
      if accept3 b0 b1 && isCont b2 then
        ((b0 - 0xE0) * 4096 + (b1 - 0x80) * 64 + (b2 - 0x80), 3)
      else (0xFFFD, 1) := by
  simp only [decodeRune]
  rw [if_neg (by omega), if_neg (by omega), if_neg (by omega), if_pos h2]

/-- Truncated input after a 3-byte leading byte. -/
theorem decodeRune_three_short (b0 : Nat) (rest : List Nat) (h1 : 0xDF < b0)
    (h2 : b0 ≤ 0xEF) (h3 : rest.length < 2) : decodeRune (b0 :: rest) = (0xFFFD, 1) := by
  match rest with
  | [] =>
    simp only [decodeRune]
    rw [if_neg (by omega), if_neg (by omega), if_neg (by omega), if_pos h2]
  | [b1] =>
    simp only [decodeRune]
    rw [if_neg (by omega), if_neg (by omega), if_neg (by omega), if_pos h2]
  | b1 :: b2 :: t => simp only [List.length_cons] at h3; omega

/-- Decoding from a 4-byte leading byte. -/
theorem decodeRune_four (b0 b1 b2 b3 : Nat) (t : List Nat) (h1 : 0xEF < b0) (h2 : b0 ≤ 0xF4) :
    decodeRune (b0 :: b1 :: b2 :: b3 :: t) =
      if accept4 b0 b1 && isCont b2 && isCont b3 then
        ((b0 - 0xF0) * 262144 + (b1 - 0x80) * 4096 + (b2 - 0x80) * 64 + (b3 - 0x80), 4)
      else (0xFFFD, 1) := by
  simp only [decodeRune]
  rw [if_neg (by omega), if_neg (by omega), if_neg (by omega), if_neg (by omega), if_pos h2]

/-- Truncated input after a 4-byte leading byte. -/
theorem decodeRune_four_short (b0 : Nat) (rest : List Nat) (h1 : 0xEF < b0)
    (h2 : b0 ≤ 0xF4) (h3 : rest.length < 3) : decodeRune (b0 :: rest) = (0xFFFD, 1) := by
  match rest with
  | [] =>
    simp only [decodeRune]
    rw [if_neg (by omega), if_neg (by omega), if_neg (by omega), if_neg (by omega), if_pos h2]
  | [b1] =>
    simp only [decodeRune]
    rw [if_neg (by omega), if_neg (by omega), if_neg (by omega), if_neg (by omega), if_pos h2]
  | [b1, b2] =>
    simp only [decodeRune]
    rw [if_neg (by omega), if_neg (by omega), if_neg (by omega), if_neg (by omega), if_pos h2]
  | b1 :: b2 :: b3 :: t => simp only [List.length_cons] at h3; omega

/-- Characterisation of a successful multibyte decode: the consumed bytes are
an explicit 2-, 3- or 4-byte pattern. -/
theorem decodeRune_multibyte (b0 : Nat) (rest : List Nat)
    (hb : 0x80 ≤ b0)
    (hval : ¬((decodeRune (b0 :: rest)).1 = 0xFFFD ∧ (decodeRune (b0 :: rest)).2 = 1)) :
    (∃ b1 t, rest = b1 :: t ∧
      decodeRune (b0 :: rest) = ((b0 - 0xC0) * 64 + (b1 - 0x80), 2) ∧
      0xC2 ≤ b0 ∧ b0 ≤ 0xDF ∧ isCont b1 = true) ∨
    (∃ b1 b2 t, rest = b1 :: b2 :: t ∧
      decodeRune (b0 :: rest) = ((b0 - 0xE0) * 4096 + (b1 - 0x80) * 64 + (b2 - 0x80), 3) ∧
      0xE0 ≤ b0 ∧ b0 ≤ 0xEF ∧ accept3 b0 b1 = true ∧ isCont b2 = true) ∨
    (∃ b1 b2 b3 t, rest = b1 :: b2 :: b3 :: t ∧
      decodeRune (b0 :: rest) =
        ((b0 - 0xF0) * 262144 + (b1 - 0x80) * 4096 + (b2 - 0x80) * 64 + (b3 - 0x80), 4) ∧
      0xF0 ≤ b0 ∧ b0 ≤ 0xF4 ∧ accept4 b0 b1 = true ∧ isCont b2 = true ∧
      isCont b3 = true) := by
  by_cases h1 : b0 < 0xC2
  · exact absurd (by rw [decodeRune_low b0 rest hb h1]; exact ⟨rfl, rfl⟩) hval
  · by_cases h2 : b0 ≤ 0xDF
    · left
      match rest with
      | [] => exact absurd (by rw [decodeRune_two_nil b0 (by omega) h2]; exact ⟨rfl, rfl⟩) hval
      | b1 :: t =>
        by_cases hc : isCont b1
        · refine ⟨b1, t, rfl, ?_, by omega, h2, hc⟩
          rw [decodeRune_two b0 b1 t (by omega) h2, if_pos hc]
        · exact absurd (by
            rw [decodeRune_two b0 b1 t (by omega) h2, if_neg hc]; exact ⟨rfl, rfl⟩) hval
    · by_cases h3 : b0 ≤ 0xEF
      · right; left
        match rest with
        | [] => exact absurd (by
            rw [decodeRune_three_short b0 [] (by omega) h3 (by simp)]; exact ⟨rfl, rfl⟩) hval
        | [b1] => exact absurd (by
            rw [decodeRune_three_short b0 [b1] (by omega) h3 (by simp)]; exact ⟨rfl, rfl⟩) hval
        | b1 :: b2 :: t =>
          by_cases hc : accept3 b0 b1 && isCont b2
          · refine ⟨b1, b2, t, rfl, ?_, by omega, h3, ?_, ?_⟩
            · rw [decodeRune_three b0 b1 b2 t (by omega) h3, if_pos hc]
            · exact (Bool.and_eq_true _ _ ▸ hc).1
            · exact (Bool.and_eq_true _ _ ▸ hc).2
          · exact absurd (by
              rw [decodeRune_three b0 b1 b2 t (by omega) h3, if_neg hc]
              exact ⟨rfl, rfl⟩) hval
      · by_cases h4 : b0 ≤ 0xF4
        · right; right
          match rest with
          | [] => exact absurd (by
              rw [decodeRune_four_short b0 [] (by omega) h4 (by simp)]; exact ⟨rfl, rfl⟩) hval
          | [b1] => exact absurd (by
              rw [decodeRune_four_short b0 [b1] (by omega) h4 (by simp)]; exact ⟨rfl, rfl⟩) hval
          | [b1, b2] => exact absurd (by
              rw [decodeRune_four_short b0 [b1, b2] (by omega) h4 (by simp)]
              exact ⟨rfl, rfl⟩) hval
          | b1 :: b2 :: b3 :: t =>
            by_cases hc : accept4 b0 b1 && isCont b2 && isCont b3
            · refine ⟨b1, b2, b3, t, rfl, ?_, by omega, h4, ?_, ?_, ?_⟩
              · rw [decodeRune_four b0 b1 b2 b3 t (by omega) h4, if_pos hc]
              · exact ((Bool.and_eq_true _ _ ▸ (Bool.and_eq_true _ _ ▸ hc).1).1)
              · exact ((Bool.and_eq_true _ _ ▸ (Bool.and_eq_true _ _ ▸ hc).1).2)
              · exact (Bool.and_eq_true _ _ ▸ hc).2
            · exact absurd (by
                rw [decodeRune_four b0 b1 b2 b3 t (by omega) h4, if_neg hc]
                exact ⟨rfl, rfl⟩) hval
        · exact absurd (by rw [decodeRune_high b0 rest (by omega)]; exact ⟨rfl, rfl⟩) hval

/-! ## JSON string escaping, embedding `safeAppendString` (src/fson.go) -/

/-- The hex characters, as in the `_hex` constant of the source. -/
def hexDigitByte (d : Nat) : Nat := if d < 10 then 48 + d else 87 + d

/-- The escape sequence emitted for one ASCII byte that needs escaping,
following the `switch` in `safeAppendString`: backslash and double quote get
a backslash prefix, newline, carriage return and tab get their short forms,
and every other control byte becomes a `\u00XX` hex escape. -/
def escByte (b : Nat) : List Nat :=
  if b = 92 ∨ b = 34 then [92, b]
  else if b = 10 then [92, 110]
  else if b = 13 then [92, 114]
  else if b = 9 then [92, 116]
  else [92, 117, 48, 48, hexDigitByte (b / 16), hexDigitByte (b % 16)]

/-- Byte-at-a-time restatement of the escaping scan (fuelled; `fuel` at least
the input length makes it total).  Safe ASCII bytes are copied, unsafe ASCII
bytes are escaped via `escByte`, valid multibyte runes are copied through
unchanged, and each byte starting an invalid encoding is replaced by the
UTF-8 encoding `EF BF BD` of U+FFFD. -/
def escapeSimpleF : Nat → List Nat → List Nat
  | _, [] => []
  | 0, _ :: _ => []
  | f+1, b :: t =>
    if 0x80 ≤ b then
      let d := decodeRune (b :: t)
      if d.1 = 0xFFFD ∧ d.2 = 1 then
        0xEF :: 0xBF :: 0xBD :: escapeSimpleF f t
      else
        List.take d.2 (b :: t) ++ escapeSimpleF f (List.drop (d.2 - 1) t)
    else if 0x20 ≤ b ∧ b ≠ 92 ∧ b ≠ 34 then
      b :: escapeSimpleF f t
    else
      escByte b ++ escapeSimpleF f t

/-- Escaping scan with the canonical fuel. -/
def escapeSimple (s : List Nat) : List Nat := escapeSimpleF s.length s

/-- What JSON-decoding the escaped string yields: the input with every byte
that starts an invalid UTF-8 encoding replaced by U+FFFD (`EF BF BD`), all
other bytes unchanged — the byte-level content of the produced literal. -/
def sanitizeF : Nat → List Nat → List Nat
  | _, [] => []
  | 0, _ :: _ => []
  | f+1, b :: t =>
    if 0x80 ≤ b then
      let d := decodeRune (b :: t)
      if d.1 = 0xFFFD ∧ d.2 = 1 then
        0xEF :: 0xBF :: 0xBD :: sanitizeF f t
      else
        List.take d.2 (b :: t) ++ sanitizeF f (List.drop (d.2 - 1) t)
    else b :: sanitizeF f t

/-- Sanitisation with the canonical fuel. -/
def sanitize (s : List Nat) : List Nat := sanitizeF s.length s

/-- UTF-8 validity of a byte sequence (fuelled validator): every rune must
decode successfully. -/
def utf8ValidF : Nat → List Nat → Bool
  | _, [] => true
  | 0, _ :: _ => false
  | f+1, b :: t =>
    if 0x80 ≤ b then
      let d := decodeRune (b :: t)
      if d.1 = 0xFFFD ∧ d.2 = 1 then false
      else utf8ValidF f (List.drop (d.2 - 1) t)
    else utf8ValidF f t

/-- UTF-8 validity with the canonical fuel. -/
def utf8Valid (s : List Nat) : Bool := utf8ValidF s.length s

/-- A successful decode only looks at the bytes it consumes: replacing
everything after them leaves the result unchanged. -/
theorem decodeRune_take_append (s : List Nat) (hs : s ≠ [])
    (hval : ¬((decodeRune s).1 = 0xFFFD ∧ (decodeRune s).2 = 1)) (u : List Nat) :
    decodeRune (List.take (decodeRune s).2 s ++ u) = decodeRune s := by
  match s with
  | b0 :: rest =>
    by_cases hb : b0 < 0x80
    · rw [decodeRune_ascii b0 rest hb]
      simp only [List.take_succ_cons, List.take_zero, List.cons_append, List.nil_append]
      exact decodeRune_ascii b0 u hb
    · rcases decodeRune_multibyte b0 rest (by omega) hval with
        ⟨b1, t, hrest, heq, hc2, hdf, hcont⟩ |
        ⟨b1, b2, t, hrest, heq, he0, hef, hacc, hcont⟩ |
        ⟨b1, b2, b3, t, hrest, heq, hf0, hf4, hacc, hc2', hc3'⟩
      · subst hrest; rw [heq]
        simp only [List.take_succ_cons, List.take_zero, List.cons_append, List.nil_append]
        rw [decodeRune_two b0 b1 u hc2 hdf, if_pos hcont]
      · subst hrest; rw [heq]
        simp only [List.take_succ_cons, List.take_zero, List.cons_append, List.nil_append]
        rw [decodeRune_three b0 b1 b2 u (by omega) hef]
        simp [hacc, hcont]
      · subst hrest; rw [heq]
        simp only [List.take_succ_cons, List.take_zero, List.cons_append, List.nil_append]
        rw [decodeRune_four b0 b1 b2 b3 u (by omega) hf4]
        simp [hacc, hc2', hc3']

/-- The fuel argument of the escaping scan is irrelevant once it covers the
input length. -/
theorem escapeSimpleF_congr :
    ∀ (f1 f2 : Nat) (s : List Nat), s.length ≤ f1 → s.length ≤ f2 →
      escapeSimpleF f1 s = escapeSimpleF f2 s
  | _, _, [], _, _ => by simp [escapeSimpleF]
  | 0, _, b :: t, h1, _ => by simp at h1
  | _+1, 0, b :: t, _, h2 => by simp at h2
  | f1+1, f2+1, b :: t, h1, h2 => by
    have ht1 : t.length ≤ f1 := by simp only [List.length_cons] at h1; omega
    have ht2 : t.length ≤ f2 := by simp only [List.length_cons] at h2; omega
    have hd1 : ∀ k, (List.drop k t).length ≤ f1 := fun k => by
      rw [List.length_drop]; omega
    have hd2 : ∀ k, (List.drop k t).length ≤ f2 := fun k => by
      rw [List.length_drop]; omega
    simp only [escapeSimpleF]
    by_cases hb : 0x80 ≤ b
    · rw [if_pos hb, if_pos hb]
      by_cases hv : (decodeRune (b :: t)).1 = 0xFFFD ∧ (decodeRune (b :: t)).2 = 1
      · rw [if_pos hv, if_pos hv, escapeSimpleF_congr f1 f2 t ht1 ht2]
      · rw [if_neg hv, if_neg hv,
          escapeSimpleF_congr f1 f2 (List.drop ((decodeRune (b :: t)).2 - 1) t)
            (hd1 _) (hd2 _)]
    · rw [if_neg hb, if_neg hb]
      by_cases hs : 0x20 ≤ b ∧ b ≠ 92 ∧ b ≠ 34
      · rw [if_pos hs, if_pos hs, escapeSimpleF_congr f1 f2 t ht1 ht2]
      · rw [if_neg hs, if_neg hs, escapeSimpleF_congr f1 f2 t ht1 ht2]

/-- The fuel argument of the sanitisation scan is irrelevant once it covers
the input length. -/
theorem sanitizeF_congr :
    ∀ (f1 f2 : Nat) (s : List Nat), s.length ≤ f1 → s.length ≤ f2 →
      sanitizeF f1 s = sanitizeF f2 s
  | _, _, [], _, _ => by simp [sanitizeF]
  | 0, _, b :: t, h1, _ => by simp at h1
  | _+1, 0, b :: t, _, h2 => by simp at h2
  | f1+1, f2+1, b :: t, h1, h2 => by
    have ht1 : t.length ≤ f1 := by simp only [List.length_cons] at h1; omega
    have ht2 : t.length ≤ f2 := by simp only [List.length_cons] at h2; omega
    have hd1 : ∀ k, (List.drop k t).length ≤ f1 := fun k => by
      rw [List.length_drop]; omega
    have hd2 : ∀ k, (List.drop k t).length ≤ f2 := fun k => by
      rw [List.length_drop]; omega
    simp only [sanitizeF]
    by_cases hb : 0x80 ≤ b
    · rw [if_pos hb, if_pos hb]
      by_cases hv : (decodeRune (b :: t)).1 = 0xFFFD ∧ (decodeRune (b :: t)).2 = 1
      · rw [if_pos hv, if_pos hv, sanitizeF_congr f1 f2 t ht1 ht2]
      · rw [if_neg hv, if_neg hv,
          sanitizeF_congr f1 f2 (List.drop ((decodeRune (b :: t)).2 - 1) t) (hd1 _) (hd2 _)]
    · rw [if_neg hb, if_neg hb, sanitizeF_congr f1 f2 t ht1 ht2]

/-- The fuel argument of the UTF-8 validator is irrelevant once it covers
the input length. -/
theorem utf8ValidF_congr :
    ∀ (f1 f2 : Nat) (s : List Nat), s.length ≤ f1 → s.length ≤ f2 →
      utf8ValidF f1 s = utf8ValidF f2 s
  | _, _, [], _, _ => by simp [utf8ValidF]
  | 0, _, b :: t, h1, _ => by simp at h1
  | _+1, 0, b :: t, _, h2 => by simp at h2
  | f1+1, f2+1, b :: t, h1, h2 => by
    have ht1 : t.length ≤ f1 := by simp only [List.length_cons] at h1; omega
    have ht2 : t.length ≤ f2 := by simp only [List.length_cons] at h2; omega
    have hd1 : ∀ k, (List.drop k t).length ≤ f1 := fun k => by
      rw [List.length_drop]; omega
    have hd2 : ∀ k, (List.drop k t).length ≤ f2 := fun k => by
      rw [List.length_drop]; omega
    simp only [utf8ValidF]
    by_cases hb : 0x80 ≤ b
    · rw [if_pos hb, if_pos hb]
      by_cases hv : (decodeRune (b :: t)).1 = 0xFFFD ∧ (decodeRune (b :: t)).2 = 1
      · rw [if_pos hv, if_pos hv]
      · rw [if_neg hv, if_neg hv,
          utf8ValidF_congr f1 f2 (List.drop ((decodeRune (b :: t)).2 - 1) t) (hd1 _) (hd2 _)]
    · rw [if_neg hb, if_neg hb, utf8ValidF_congr f1 f2 t ht1 ht2]

/-- One-step unfolding of `escapeSimple` with canonical fuel. -/
theorem escapeSimple_cons (b : Nat) (t : List Nat) :
    escapeSimple (b :: t) =
      (if 0x80 ≤ b then
        if (decodeRune (b :: t)).1 = 0xFFFD ∧ (decodeRune (b :: t)).2 = 1 then
          0xEF :: 0xBF :: 0xBD :: escapeSimple t
        else
          List.take (decodeRune (b :: t)).2 (b :: t) ++
            escapeSimple (List.drop ((decodeRune (b :: t)).2 - 1) t)
      else if 0x20 ≤ b ∧ b ≠ 92 ∧ b ≠ 34 then b :: escapeSimple t
      else escByte b ++ escapeSimple t) := by
  show escapeSimpleF (t.length + 1) (b :: t) = _
  simp only [escapeSimpleF]
  by_cases hb : 0x80 ≤ b
  · rw [if_pos hb, if_pos hb]
    by_cases hv : (decodeRune (b :: t)).1 = 0xFFFD ∧ (decodeRune (b :: t)).2 = 1
    · rw [if_pos hv, if_pos hv]
      rfl
    · rw [if_neg hv, if_neg hv,
        escapeSimpleF_congr t.length (List.drop ((decodeRune (b :: t)).2 - 1) t).length
          (List.drop ((decodeRune (b :: t)).2 - 1) t) (by rw [List.length_drop]; omega)
          (le_refl _)]
      rfl
  · rw [if_neg hb, if_neg hb]
    by_cases hs : 0x20 ≤ b ∧ b ≠ 92 ∧ b ≠ 34
    · rw [if_pos hs, if_pos hs]
      rfl
    · rw [if_neg hs, if_neg hs]
      rfl

/-- One-step unfolding of `sanitize` with canonical fuel. -/
theorem sanitize_cons (b : Nat) (t : List Nat) :
    sanitize (b :: t) =
      (if 0x80 ≤ b then
        if (decodeRune (b :: t)).1 = 0xFFFD ∧ (decodeRune (b :: t)).2 = 1 then
          0xEF :: 0xBF :: 0xBD :: sanitize t
        else
          List.take (decodeRune (b :: t)).2 (b :: t) ++
            sanitize (List.drop ((decodeRune (b :: t)).2 - 1) t)
      else b :: sanitize t) := by
  show sanitizeF (t.length + 1) (b :: t) = _
  simp only [sanitizeF]
  by_cases hb : 0x80 ≤ b
  · rw [if_pos hb, if_pos hb]
    by_cases hv : (decodeRune (b :: t)).1 = 0xFFFD ∧ (decodeRune (b :: t)).2 = 1
    · rw [if_pos hv, if_pos hv]
      rfl
    · rw [if_neg hv, if_neg hv,
        sanitizeF_congr t.length (List.drop ((decodeRune (b :: t)).2 - 1) t).length
          (List.drop ((decodeRune (b :: t)).2 - 1) t) (by rw [List.length_drop]; omega)
          (le_refl _)]
      rfl
  · rw [if_neg hb, if_neg hb]
    rfl

/-- One-step unfolding of `utf8Valid` with canonical fuel. -/
theorem utf8Valid_cons (b : Nat) (t : List Nat) :
    utf8Valid (b :: t) =
      (if 0x80 ≤ b then
        if (decodeRune (b :: t)).1 = 0xFFFD ∧ (decodeRune (b :: t)).2 = 1 then false
        else utf8Valid (List.drop ((decodeRune (b :: t)).2 - 1) t)
      else utf8Valid t) := by
  show utf8ValidF (t.length + 1) (b :: t) = _
  simp only [utf8ValidF]
  by_cases hb : 0x80 ≤ b
  · rw [if_pos hb, if_pos hb]
    by_cases hv : (decodeRune (b :: t)).1 = 0xFFFD ∧ (decodeRune (b :: t)).2 = 1
    · rw [if_pos hv, if_pos hv]
    · rw [if_neg hv, if_neg hv,
        utf8ValidF_congr t.length (List.drop ((decodeRune (b :: t)).2 - 1) t).length
          (List.drop ((decodeRune (b :: t)).2 - 1) t) (by rw [List.length_drop]; omega)
          (le_refl _)]
      rfl
  · rw [if_neg hb, if_neg hb]
    rfl

/-! ## The `safeAppendString` scan loop of the source, with its two indices -/

/-- Go slice expression `s[l:r]`. -/
def slice (s : List Nat) (l r : Nat) : List Nat := List.drop l (List.take r s)

theorem slice_zero (s : List Nat) (c : Nat) : slice s c c = [] := by
  unfold slice
  rw [List.drop_take]
  simp

theorem slice_take_drop (s : List Nat) (c n : Nat) :
    slice s c (c + n) = List.take n (List.drop c s) := by
  unfold slice
  rw [List.drop_take]
  congr 1
  omega

theorem slice_all (s : List Nat) (l c : Nat) (h : s.length ≤ c) :
    slice s l c = List.drop l s := by
  unfold slice
  rw [List.take_of_length_le h]

theorem slice_join (s : List Nat) (l c r : Nat) (h1 : l ≤ c) (h2 : c ≤ r)
    (h3 : r ≤ s.length) : slice s l c ++ slice s c r = slice s l r := by
  unfold slice
  have hu : (List.take r s).length = r := by rw [List.length_take]; omega
  have htc : List.take c (List.take r s) = List.take c s := by
    rw [List.take_take, min_eq_left h2]
  calc List.drop l (List.take c s) ++ List.drop c (List.take r s)
      = List.drop l (List.take c (List.take r s)) ++ List.drop c (List.take r s) := by
        rw [htc]
    _ = List.drop l (List.take c (List.take r s) ++ List.drop c (List.take r s)) := by
        rw [List.drop_append_of_le_length]
        rw [List.length_take, hu]
        omega
    _ = List.drop l (List.take r s) := by rw [List.take_append_drop]

/-- Embedding of the body of `safeAppendString` (src/fson.go): the scan keeps
`lastProcessedIndex` (`l`) and `currentIndex` (`c`), copies the pending run
`s[l:c]` in one operation whenever a byte needs special handling, and appends
the remaining run at the end.  Fuel is consumed once per loop iteration. -/
def safeAppendStringF : Nat → List Nat → List Nat → Nat → Nat → List Nat
  | 0, s, buf, l, _ => buf ++ slice s l s.length
  | f+1, s, buf, l, c =>
    if c < s.length then
      let b := s.getD c 0
      if 0x80 ≤ b then
        let d := decodeRune (List.drop c s)
        if d.1 = 0xFFFD ∧ d.2 = 1 then
          safeAppendStringF f s (buf ++ slice s l c ++ [0xEF, 0xBF, 0xBD]) (c+1) (c+1)
        else
          safeAppendStringF f s buf l (c + d.2)
      else if 0x20 ≤ b ∧ b ≠ 92 ∧ b ≠ 34 then
        safeAppendStringF f s buf l (c+1)
      else
        safeAppendStringF f s (buf ++ slice s l c ++ escByte b) (c+1) (c+1)
    else buf ++ slice s l s.length

/-- `safeAppendString` of the source: run the scan from both indices at 0. -/
def safeAppendString (buf s : List Nat) : List Nat := safeAppendStringF s.length s buf 0 0

/-- Embedding of `appendString` (src/fson.go): open quote, escaped body,
close quote. -/
def appendString (buf s : List Nat) : List Nat := safeAppendString (buf ++ [34]) s ++ [34]

/-- The run-copying scan loop is the byte-at-a-time escaper: from any valid
pair of indices it appends the pending run and the escape of the remaining
input. -/
theorem safeAppendStringF_spec :
    ∀ (f : Nat) (s buf : List Nat) (l c : Nat), l ≤ c → s.length - c ≤ f →
      safeAppendStringF f s buf l c = buf ++ slice s l c ++ escapeSimple (List.drop c s)
  | 0, s, buf, l, c, hlc, hf => by
    have hc : s.length ≤ c := by omega
    simp only [safeAppendStringF]
    rw [List.drop_eq_nil_of_le hc, slice_all s l c hc, slice_all s l s.length (le_refl _)]
    simp [escapeSimple, escapeSimpleF]
  | f+1, s, buf, l, c, hlc, hf => by
    by_cases hc : c < s.length
    · have hdrop : List.drop c s = s.getD c 0 :: List.drop (c+1) s := by
        rw [List.getD_eq_getElem s 0 hc]
        exact List.drop_eq_getElem_cons hc
      have hne : List.drop c s ≠ [] := by rw [hdrop]; simp
      simp only [safeAppendStringF, if_pos hc]
      by_cases hb : 0x80 ≤ s.getD c 0
      · rw [if_pos hb]
        by_cases hv : (decodeRune (List.drop c s)).1 = 0xFFFD ∧
            (decodeRune (List.drop c s)).2 = 1
        · rw [if_pos hv]
          rw [safeAppendStringF_spec f s _ (c+1) (c+1) (le_refl _) (by omega)]
          rw [slice_zero]
          conv_rhs => rw [hdrop, escapeSimple_cons, if_pos hb]
          rw [hdrop] at hv
          rw [if_pos hv]
          simp [List.append_assoc]
        · rw [if_neg hv]
          have hpos : 1 ≤ (decodeRune (List.drop c s)).2 := decodeRune_size_pos _ hne
          have hle : (decodeRune (List.drop c s)).2 ≤ s.length - c := by
            have := decodeRune_size_le (List.drop c s)
            rwa [List.length_drop] at this
          rw [safeAppendStringF_spec f s buf l (c + (decodeRune (List.drop c s)).2)
            (by omega) (by omega)]
          conv_rhs => rw [hdrop, escapeSimple_cons, if_pos hb]
          rw [hdrop] at hv
          rw [if_neg hv]
          rw [← hdrop]
          have hdd : List.drop ((decodeRune (List.drop c s)).2 - 1) (List.drop (c+1) s) =
              List.drop (c + (decodeRune (List.drop c s)).2) s := by
            rw [List.drop_drop]
            congr 1
            omega
          rw [hdd, ← slice_take_drop]
          rw [← slice_join s l c (c + (decodeRune (List.drop c s)).2) hlc (by omega) (by omega)]
          simp [List.append_assoc]
      · rw [if_neg hb]
        by_cases hsafe : 0x20 ≤ s.getD c 0 ∧ s.getD c 0 ≠ 92 ∧ s.getD c 0 ≠ 34
        · rw [if_pos hsafe]
          rw [safeAppendStringF_spec f s buf l (c+1) (by omega) (by omega)]
          conv_rhs => rw [hdrop, escapeSimple_cons, if_neg hb, if_pos hsafe]
          have hone : slice s c (c + 1) = [s.getD c 0] := by
            rw [slice_take_drop, hdrop]
            simp
          rw [← slice_join s l c (c+1) hlc (by omega) (by omega), hone]
          simp [List.append_assoc]
        · rw [if_neg hsafe]
          rw [safeAppendStringF_spec f s _ (c+1) (c+1) (le_refl _) (by omega)]
          rw [slice_zero]
          conv_rhs => rw [hdrop, escapeSimple_cons, if_neg hb, if_neg hsafe]
          simp [List.append_assoc]
    · have hcle : s.length ≤ c := by omega
      simp only [safeAppendStringF, if_neg hc]
      rw [List.drop_eq_nil_of_le hcle, slice_all s l c hcle, slice_all s l s.length (le_refl _)]
      simp [escapeSimple, escapeSimpleF]

/-- `appendString` wraps the cleanly-specified escape of the input in double
quotes. -/
theorem appendString_eq (buf s : List Nat) :
    appendString buf s = buf ++ 34 :: escapeSimple s ++ [34] := by
  unfold appendString safeAppendString
  rw [safeAppendStringF_spec s.length s (buf ++ [34]) 0 0 (le_refl _) (by omega)]
  rw [slice_zero, List.drop_zero]
  simp [List.append_assoc]

/-! ## UTF-8 facts about the scanners -/

theorem utf8Valid_nil : utf8Valid [] = true := rfl

/-- An ASCII byte in front never affects UTF-8 validity. -/
theorem utf8Valid_ascii_cons (b : Nat) (t : List Nat) (hb : b < 0x80) :
    utf8Valid (b :: t) = utf8Valid t := by
  rw [utf8Valid_cons, if_neg (by omega)]

/-- A run of ASCII bytes in front never affects UTF-8 validity. -/
theorem utf8Valid_ascii_append :
    ∀ (a : List Nat), (∀ x ∈ a, x < 0x80) → ∀ u, utf8Valid (a ++ u) = utf8Valid u
  | [], _, u => rfl
  | b :: t, h, u => by
    rw [List.cons_append, utf8Valid_ascii_cons _ _ (h b (by simp))]
    exact utf8Valid_ascii_append t (fun x hx => h x (by simp [hx])) u

/-- The bytes consumed by a successful decode form a complete rune: skipping
them leaves validity of the remainder. -/
theorem utf8Valid_rune_prefix (s : List Nat) (hs : s ≠ [])
    (hval : ¬((decodeRune s).1 = 0xFFFD ∧ (decodeRune s).2 = 1)) (u : List Nat) :
    utf8Valid (List.take (decodeRune s).2 s ++ u) = utf8Valid u := by
  match s with
  | b0 :: rest =>
    by_cases hb : b0 < 0x80
    · rw [decodeRune_ascii _ _ hb]
      simp only [List.take_succ_cons, List.take_zero, List.cons_append, List.nil_append]
      exact utf8Valid_ascii_cons b0 u hb
    · have hpos : 1 ≤ (decodeRune (b0 :: rest)).2 := decodeRune_size_pos _ (by simp)
      have hle : (decodeRune (b0 :: rest)).2 ≤ rest.length + 1 := by
        have := decodeRune_size_le (b0 :: rest)
        simpa using this
      obtain ⟨k, hk⟩ : ∃ k, (decodeRune (b0 :: rest)).2 = k + 1 :=
        ⟨(decodeRune (b0 :: rest)).2 - 1, by omega⟩
      have hklen : (List.take k rest).length = k := by
        rw [List.length_take]
        omega
      rw [hk, List.take_succ_cons, List.cons_append, utf8Valid_cons, if_pos (by omega)]
      have hd : decodeRune (b0 :: (List.take k rest ++ u)) = decodeRune (b0 :: rest) := by
        have := decodeRune_take_append (b0 :: rest) (by simp) hval u
        rw [hk] at this
        simpa using this
      rw [hd, if_neg hval, hk]
      simp only [Nat.add_sub_cancel]
      have hdl : List.drop k (List.take k rest ++ u) = u := by
        have := List.drop_left (List.take k rest) u
        rwa [hklen] at this
      rw [hdl]

/-- Appending after a valid sequence: validity of the whole is validity of
the suffix. -/
theorem utf8Valid_append :
    ∀ (f : Nat) (a u : List Nat), a.length ≤ f → utf8Valid a = true →
      utf8Valid (a ++ u) = utf8Valid u
  | _, [], u, _, _ => rfl
  | 0, b :: t, _, h, _ => by simp at h
  | f+1, b :: t, u, h, hv => by
    rw [utf8Valid_cons] at hv
    by_cases hb : 0x80 ≤ b
    · rw [if_pos hb] at hv
      by_cases hinv : (decodeRune (b :: t)).1 = 0xFFFD ∧ (decodeRune (b :: t)).2 = 1
      · rw [if_pos hinv] at hv
        exact absurd hv (by simp)
      · rw [if_neg hinv] at hv
        have hpos : 1 ≤ (decodeRune (b :: t)).2 := decodeRune_size_pos _ (by simp)
        have hsplit : (b :: t) ++ u =
            List.take (decodeRune (b :: t)).2 (b :: t) ++
              (List.drop ((decodeRune (b :: t)).2 - 1) t ++ u) := by
          rw [← List.append_assoc]
          congr 1
          have : List.drop ((decodeRune (b :: t)).2 - 1) t =
              List.drop (decodeRune (b :: t)).2 (b :: t) := by
            obtain ⟨k, hk⟩ : ∃ k, (decodeRune (b :: t)).2 = k + 1 :=
              ⟨(decodeRune (b :: t)).2 - 1, by omega⟩
            rw [hk, List.drop_succ_cons]
            simp
          rw [this, List.take_append_drop]
        rw [hsplit, utf8Valid_rune_prefix (b :: t) (by simp) hinv _]
        exact utf8Valid_append f _ u (by rw [List.length_drop]; simp at h ⊢; omega) hv
    · rw [if_neg hb] at hv
      rw [List.cons_append, utf8Valid_ascii_cons _ _ (by omega)]
      exact utf8Valid_append f t u (by simp at h; omega) hv

theorem hexDigitByte_lt (d : Nat) (h : d ≤ 40) : hexDigitByte d < 0x80 := by
  unfold hexDigitByte
  split <;> omega

/-- Escape sequences are pure ASCII. -/
theorem escByte_ascii (b : Nat) (hb : b < 0x80) : ∀ x ∈ escByte b, x < 0x80 := by
  intro x hx
  have hdiv : b / 16 ≤ 40 := by omega
  have hmod : b % 16 ≤ 40 := by omega
  unfold escByte at hx
  split at hx
  · rename_i hcase
    simp at hx
    rcases hx with rfl | rfl
    · omega
    · omega
  · split at hx
    · simp at hx
      rcases hx with rfl | rfl <;> omega
    · split at hx
      · simp at hx
        rcases hx with rfl | rfl <;> omega
      · split at hx
        · simp at hx
          rcases hx with rfl | rfl <;> omega
        · simp at hx
          rcases hx with rfl | rfl | rfl | rfl | rfl | rfl <;>
            first
              | omega
              | exact hexDigitByte_lt _ hdiv
              | exact hexDigitByte_lt _ hmod

/-- The replacement character encoding in front never affects validity. -/
theorem utf8Valid_fffd (u : List Nat) :
    utf8Valid (0xEF :: 0xBF :: 0xBD :: u) = utf8Valid u := by
  have h := utf8Valid_rune_prefix [0xEF, 0xBF, 0xBD] (by simp) (by decide) u
  have hd : (decodeRune [0xEF, 0xBF, 0xBD]).2 = 3 := by decide
  rw [hd] at h
  simpa using h

/-- Escaped output is always valid UTF-8, for arbitrary input bytes. -/
theorem utf8Valid_escapeSimple :
    ∀ (f : Nat) (s : List Nat), s.length ≤ f → utf8Valid (escapeSimple s) = true
  | _, [], _ => rfl
  | 0, b :: t, h => by simp at h
  | f+1, b :: t, h => by
    have ht : t.length ≤ f := by simp at h; omega
    rw [escapeSimple_cons]
    by_cases hb : 0x80 ≤ b
    · rw [if_pos hb]
      by_cases hinv : (decodeRune (b :: t)).1 = 0xFFFD ∧ (decodeRune (b :: t)).2 = 1
      · rw [if_pos hinv, utf8Valid_fffd]
        exact utf8Valid_escapeSimple f t ht
      · rw [if_neg hinv, utf8Valid_rune_prefix (b :: t) (by simp) hinv]
        exact utf8Valid_escapeSimple f _ (by rw [List.length_drop]; omega)
    · rw [if_neg hb]
      by_cases hsafe : 0x20 ≤ b ∧ b ≠ 92 ∧ b ≠ 34
      · rw [if_pos hsafe, utf8Valid_ascii_cons _ _ (by omega)]
        exact utf8Valid_escapeSimple f t ht
      · rw [if_neg hsafe, utf8Valid_ascii_append _ (escByte_ascii b (by omega))]
        exact utf8Valid_escapeSimple f t ht

/-- On UTF-8-valid input the sanitiser is the identity: nothing is replaced. -/
theorem sanitize_of_utf8Valid :
    ∀ (f : Nat) (s : List Nat), s.length ≤ f → utf8Valid s = true → sanitize s = s
  | _, [], _, _ => rfl
  | 0, b :: t, h, _ => by simp at h
  | f+1, b :: t, h, hv => by
    have ht : t.length ≤ f := by simp at h; omega
    rw [utf8Valid_cons] at hv
    rw [sanitize_cons]
    by_cases hb : 0x80 ≤ b
    · rw [if_pos hb] at hv ⊢
      by_cases hinv : (decodeRune (b :: t)).1 = 0xFFFD ∧ (decodeRune (b :: t)).2 = 1
      · rw [if_pos hinv] at hv
        exact absurd hv (by simp)
      · rw [if_neg hinv] at hv ⊢
        rw [sanitize_of_utf8Valid f _ (by rw [List.length_drop]; omega) hv]
        have hpos : 1 ≤ (decodeRune (b :: t)).2 := decodeRune_size_pos _ (by simp)
        obtain ⟨k, hk⟩ : ∃ k, (decodeRune (b :: t)).2 = k + 1 :=
          ⟨(decodeRune (b :: t)).2 - 1, by omega⟩
        rw [hk, List.take_succ_cons]
        simp only [Nat.add_sub_cancel, List.cons_append, List.take_append_drop]
    · rw [if_neg hb] at hv
      rw [if_neg hb, sanitize_of_utf8Valid f t ht hv]

/-! ## A JSON string-literal decoder (RFC 8259 §7), byte level -/

def isDigit (b : Nat) : Bool := 48 ≤ b && b ≤ 57

def isHexDigit (b : Nat) : Bool :=
  isDigit b || (97 ≤ b && b ≤ 102) || (65 ≤ b && b ≤ 70)

/-- Numeric value of a hex digit byte. -/
def hexVal (b : Nat) : Nat :=
  if b ≤ 57 then b - 48 else if b ≤ 70 then b - 55 else b - 87

/-- UTF-8 encoding of a code point. -/
def utf8Encode (c : Nat) : List Nat :=
  if c < 0x80 then [c]
  else if c < 0x800 then [0xC0 + c / 64, 0x80 + c % 64]
  else if c < 0x10000 then [0xE0 + c / 4096, 0x80 + (c / 64) % 64, 0x80 + c % 64]
  else [0xF0 + c / 262144, 0x80 + (c / 4096) % 64, 0x80 + (c / 64) % 64, 0x80 + c % 64]

/-- Decoded byte for a single-character escape (`\"`, `\\`, `\/`, `\b`, `\f`,
`\n`, `\r`, `\t`). -/
def escDecode (e : Nat) : Option Nat :=
  if e = 34 then some 34 else if e = 92 then some 92 else if e = 47 then some 47
  else if e = 98 then some 8 else if e = 102 then some 12 else if e = 110 then some 10
  else if e = 114 then some 13 else if e = 116 then some 9 else none

def hex4Ok (h1 h2 h3 h4 : Nat) : Bool :=
  isHexDigit h1 && isHexDigit h2 && isHexDigit h3 && isHexDigit h4

def hex4Val (h1 h2 h3 h4 : Nat) : Nat :=
  hexVal h1 * 4096 + hexVal h2 * 256 + hexVal h3 * 16 + hexVal h4

/-- Fuelled decoder for the body of a JSON string literal (the bytes after
the opening quote).  Returns the decoded content bytes (UTF-8) and the rest
of the input after the closing quote.  `\uXXXX` escapes are decoded to UTF-8,
surrogate pairs are combined, and unpaired surrogates decode to U+FFFD. -/
def parseStrF : Nat → List Nat → Option (List Nat × List Nat)
  | 0, _ => none
  | _+1, [] => none
  | f+1, b :: r =>
    if b = 34 then some ([], r)
    else if b = 92 then
      match r with
      | [] => none
      | e :: r1 =>
        if e = 117 then
          match r1 with
          | h1 :: h2 :: h3 :: h4 :: r2 =>
            if hex4Ok h1 h2 h3 h4 then
              if 0xD800 ≤ hex4Val h1 h2 h3 h4 ∧ hex4Val h1 h2 h3 h4 ≤ 0xDBFF then
                match r2 with
                | x1 :: x2 :: g1 :: g2 :: g3 :: g4 :: r3 =>
                  if x1 = 92 ∧ x2 = 117 ∧ hex4Ok g1 g2 g3 g4 = true ∧
                      0xDC00 ≤ hex4Val g1 g2 g3 g4 ∧ hex4Val g1 g2 g3 g4 ≤ 0xDFFF then
                    (parseStrF f r3).map (fun p =>
                      (utf8Encode (0x10000 + (hex4Val h1 h2 h3 h4 - 0xD800) * 1024 +
                        (hex4Val g1 g2 g3 g4 - 0xDC00)) ++ p.1, p.2))
                  else (parseStrF f r2).map (fun p => (utf8Encode 0xFFFD ++ p.1, p.2))
                | _ => (parseStrF f r2).map (fun p => (utf8Encode 0xFFFD ++ p.1, p.2))
              else if 0xDC00 ≤ hex4Val h1 h2 h3 h4 ∧ hex4Val h1 h2 h3 h4 ≤ 0xDFFF then
                (parseStrF f r2).map (fun p => (utf8Encode 0xFFFD ++ p.1, p.2))
              else
                (parseStrF f r2).map (fun p => (utf8Encode (hex4Val h1 h2 h3 h4) ++ p.1, p.2))
            else none
          | _ => none
        else
          match escDecode e with
          | some v => (parseStrF f r1).map (fun p => (v :: p.1, p.2))
          | none => none
    else if 0x20 ≤ b then (parseStrF f r).map (fun p => (b :: p.1, p.2))
    else none

/-- String-literal body decoder with the canonical fuel. -/
def parseStr (s : List Nat) : Option (List Nat × List Nat) := parseStrF s.length s

/-- JSON-decode one complete string literal: opening quote, body, closing
quote, nothing after. -/
def jsonDecodeString (s : List Nat) : Option (List Nat) :=
  match s with
  | 34 :: r =>
    match parseStr r with
    | some (content, []) => some content
    | _ => none
  | _ => none

/-- The fuel argument of the string decoder is irrelevant once it covers the
input length. -/
theorem parseStrF_congr :
    ∀ (f1 f2 : Nat) (s : List Nat), s.length ≤ f1 → s.length ≤ f2 →
      parseStrF f1 s = parseStrF f2 s
  | 0, 0, [], _, _ => rfl
  | 0, _+1, [], _, _ => rfl
  | _+1, 0, [], _, _ => rfl
  | _+1, _+1, [], _, _ => rfl
  | 0, _, b :: t, h1, _ => by simp at h1
  | _+1, 0, b :: t, _, h2 => by simp at h2
  | f1+1, f2+1, b :: r, h1, h2 => by
    have hr1 : r.length ≤ f1 := by simp at h1; omega
    have hr2 : r.length ≤ f2 := by simp at h2; omega
    simp only [parseStrF]
    by_cases hq : b = 34
    · rw [if_pos hq, if_pos hq]
    · rw [if_neg hq, if_neg hq]
      by_cases hbs : b = 92
      · rw [if_pos hbs, if_pos hbs]
        match r with
        | [] => rfl
        | e :: r1 =>
          dsimp only
          have hr1' : r1.length ≤ f1 := by simp at hr1; omega
          have hr2' : r1.length ≤ f2 := by simp at hr2; omega
          by_cases hu : e = 117
          · rw [if_pos hu, if_pos hu]
            match r1 with
            | [] => rfl
            | [h1'] => rfl
            | [h1', h2'] => rfl
            | [h1', h2', h3'] => rfl
            | h1' :: h2' :: h3' :: h4' :: r2 =>
              dsimp only
              have hr2a : r2.length ≤ f1 := by simp at hr1'; omega
              have hr2b : r2.length ≤ f2 := by simp at hr2'; omega
              by_cases hok : hex4Ok h1' h2' h3' h4' = true
              · rw [if_pos hok, if_pos hok]
                by_cases hhi : 0xD800 ≤ hex4Val h1' h2' h3' h4' ∧
                    hex4Val h1' h2' h3' h4' ≤ 0xDBFF
                · rw [if_pos hhi, if_pos hhi]
                  match r2 with
                  | [] => dsimp only; rw [parseStrF_congr f1 f2 [] hr2a hr2b]
                  | [x1] => dsimp only; rw [parseStrF_congr f1 f2 [x1] hr2a hr2b]
                  | [x1, x2] => dsimp only; rw [parseStrF_congr f1 f2 [x1, x2] hr2a hr2b]
                  | [x1, x2, x3] => dsimp only; rw [parseStrF_congr f1 f2 _ hr2a hr2b]
                  | [x1, x2, x3, x4] => dsimp only; rw [parseStrF_congr f1 f2 _ hr2a hr2b]
                  | [x1, x2, x3, x4, x5] => dsimp only; rw [parseStrF_congr f1 f2 _ hr2a hr2b]
                  | x1 :: x2 :: g1 :: g2 :: g3 :: g4 :: r3 =>
                    dsimp only
                    have hr3a : r3.length ≤ f1 := by
                      simp only [List.length_cons] at hr2a; omega
                    have hr3b : r3.length ≤ f2 := by
                      simp only [List.length_cons] at hr2b; omega
                    by_cases hlo : x1 = 92 ∧ x2 = 117 ∧ hex4Ok g1 g2 g3 g4 = true ∧
                        0xDC00 ≤ hex4Val g1 g2 g3 g4 ∧ hex4Val g1 g2 g3 g4 ≤ 0xDFFF
                    · rw [if_pos hlo, if_pos hlo, parseStrF_congr f1 f2 r3 hr3a hr3b]
                    · rw [if_neg hlo, if_neg hlo, parseStrF_congr f1 f2 _ hr2a hr2b]
                · rw [if_neg hhi, if_neg hhi]
                  by_cases hlo : 0xDC00 ≤ hex4Val h1' h2' h3' h4' ∧
                      hex4Val h1' h2' h3' h4' ≤ 0xDFFF
                  · rw [if_pos hlo, if_pos hlo, parseStrF_congr f1 f2 r2 hr2a hr2b]
                  · rw [if_neg hlo, if_neg hlo, parseStrF_congr f1 f2 r2 hr2a hr2b]
              · rw [if_neg hok, if_neg hok]
          · rw [if_neg hu, if_neg hu]
            match hesc : escDecode e with
            | some v => dsimp only; rw [parseStrF_congr f1 f2 r1 hr1' hr2']
            | none => rfl
      · rw [if_neg hbs, if_neg hbs]
        by_cases hge : 0x20 ≤ b
        · rw [if_pos hge, if_pos hge, parseStrF_congr f1 f2 r hr1 hr2]
        · rw [if_neg hge, if_neg hge]

/-- Closing quote ends the literal. -/
theorem parseStr_quote (r : List Nat) : parseStr (34 :: r) = some ([], r) := by
  show parseStrF (r.length + 1) (34 :: r) = _
  simp only [parseStrF]
  rw [if_pos trivial]

/-- An unescaped byte at or above 0x20 is taken verbatim. -/
theorem parseStr_raw (b : Nat) (r : List Nat) (h1 : 0x20 ≤ b) (h2 : b ≠ 34) (h3 : b ≠ 92) :
    parseStr (b :: r) = (parseStr r).map (fun p => (b :: p.1, p.2)) := by
  show parseStrF (r.length + 1) (b :: r) = _
  simp only [parseStrF]
  rw [if_neg h2, if_neg h3, if_pos h1]
  rfl

/-- A single-character escape decodes through `escDecode`. -/
theorem parseStr_esc (e v : Nat) (r : List Nat) (hesc : escDecode e = some v) :
    parseStr (92 :: e :: r) = (parseStr r).map (fun p => (v :: p.1, p.2)) := by
  have hu : e ≠ 117 := by
    intro hcontra
    subst hcontra
    simp [escDecode] at hesc
  show parseStrF (r.length + 2) (92 :: e :: r) = _
  simp only [parseStrF]
  rw [if_pos trivial]
  rw [if_neg hu, hesc]
  dsimp only
  rw [parseStrF_congr (r.length + 1) r.length r (by omega) (le_refl _)]
  rfl

/-- A `\uXXXX` escape below the surrogate range decodes to the UTF-8
encoding of its code point. -/
theorem parseStr_u (h1 h2 h3 h4 : Nat) (r : List Nat)
    (hok : hex4Ok h1 h2 h3 h4 = true) (hlow : hex4Val h1 h2 h3 h4 < 0xD800) :
    parseStr (92 :: 117 :: h1 :: h2 :: h3 :: h4 :: r) =
      (parseStr r).map (fun p => (utf8Encode (hex4Val h1 h2 h3 h4) ++ p.1, p.2)) := by
  show parseStrF (r.length + 6) _ = _
  simp only [parseStrF]
  rw [if_pos trivial]
  rw [if_pos trivial]
  rw [if_pos hok, if_neg (by omega : ¬(0xD800 ≤ hex4Val h1 h2 h3 h4 ∧
    hex4Val h1 h2 h3 h4 ≤ 0xDBFF))]
  rw [if_neg (by omega : ¬(0xDC00 ≤ hex4Val h1 h2 h3 h4 ∧ hex4Val h1 h2 h3 h4 ≤ 0xDFFF))]
  rw [parseStrF_congr (r.length + 5) r.length r (by omega) (le_refl _)]
  rfl

theorem hexVal_hexDigitByte (d : Nat) (h : d ≤ 15) : hexVal (hexDigitByte d) = d := by
  unfold hexDigitByte hexVal
  by_cases hd : d < 10
  · rw [if_pos hd, if_pos (by omega : 48 + d ≤ 57)]
    omega
  · rw [if_neg hd, if_neg (by omega : ¬87 + d ≤ 57), if_neg (by omega : ¬87 + d ≤ 70)]
    omega

theorem isHexDigit_hexDigitByte (d : Nat) (h : d ≤ 15) : isHexDigit (hexDigitByte d) = true := by
  unfold hexDigitByte isHexDigit isDigit
  by_cases hd : d < 10
  · rw [if_pos hd]
    simp
    omega
  · rw [if_neg hd]
    simp
    omega

theorem isCont_range (b : Nat) (h : isCont b = true) : 0x80 ≤ b ∧ b ≤ 0xBF := by
  simp [isCont] at h
  exact h

theorem accept3_range (b0 b1 : Nat) (h : accept3 b0 b1 = true) : 0x80 ≤ b1 ∧ b1 ≤ 0xBF := by
  unfold accept3 at h
  by_cases h0 : b0 = 0xE0
  · rw [if_pos h0] at h
    simp at h
    omega
  · rw [if_neg h0] at h
    by_cases hd : b0 = 0xED
    · rw [if_pos hd] at h
      simp at h
      omega
    · rw [if_neg hd] at h
      simp [isCont] at h
      omega

theorem accept4_range (b0 b1 : Nat) (h : accept4 b0 b1 = true) : 0x80 ≤ b1 ∧ b1 ≤ 0xBF := by
  unfold accept4 at h
  by_cases h0 : b0 = 0xF0
  · rw [if_pos h0] at h
    simp at h
    omega
  · rw [if_neg h0] at h
    by_cases hd : b0 = 0xF4
    · rw [if_pos hd] at h
      simp at h
      omega
    · rw [if_neg hd] at h
      simp [isCont] at h
      omega

/-- Round trip: decoding the escaped body (with the closing quote appended)
succeeds and yields the sanitised input, leaving any rest untouched. -/
theorem parseStr_escapeSimple :
    ∀ (f : Nat) (s : List Nat), s.length ≤ f → ∀ rest,
      parseStr (escapeSimple s ++ 34 :: rest) = some (sanitize s, rest)
  | _, [], _, rest => by
    have h1 : escapeSimple [] = [] := rfl
    have h2 : sanitize [] = [] := rfl
    rw [h1, h2, List.nil_append, parseStr_quote]
  | 0, b :: t, h, rest => by simp at h
  | f+1, b :: t, h, rest => by
    have ht : t.length ≤ f := by simp at h; omega
    rw [escapeSimple_cons, sanitize_cons]
    by_cases hb : 0x80 ≤ b
    · rw [if_pos hb, if_pos hb]
      by_cases hinv : (decodeRune (b :: t)).1 = 0xFFFD ∧ (decodeRune (b :: t)).2 = 1
      · rw [if_pos hinv, if_pos hinv]
        simp only [List.cons_append, List.nil_append]
        rw [parseStr_raw 0xEF _ (by omega) (by omega) (by omega),
          parseStr_raw 0xBF _ (by omega) (by omega) (by omega),
          parseStr_raw 0xBD _ (by omega) (by omega) (by omega),
          parseStr_escapeSimple f t ht rest]
        rfl
      · rw [if_neg hinv, if_neg hinv]
        rcases decodeRune_multibyte b t hb hinv with
          ⟨b1, t', hrest, heq, hc2, hdf, hcont⟩ |
          ⟨b1, b2, t', hrest, heq, he0, hef, hacc, hcont⟩ |
          ⟨b1, b2, b3, t', hrest, heq, hf0, hf4, hacc, hc2', hc3'⟩
        · subst hrest
          rw [heq]
          obtain ⟨hb1a, hb1b⟩ := isCont_range b1 hcont
          have hd : List.drop (2 - 1) (b1 :: t') = t' := by
            simp
          rw [hd]
          simp only [List.take_succ_cons, List.take_zero, List.cons_append, List.nil_append]
          rw [parseStr_raw b _ (by omega) (by omega) (by omega),
            parseStr_raw b1 _ (by omega) (by omega) (by omega),
            parseStr_escapeSimple f t' (by simp at ht; omega) rest]
          rfl
        · subst hrest
          rw [heq]
          obtain ⟨hb1a, hb1b⟩ := accept3_range b b1 hacc
          obtain ⟨hb2a, hb2b⟩ := isCont_range b2 hcont
          have hd : List.drop (3 - 1) (b1 :: b2 :: t') = t' := by
            simp
          rw [hd]
          simp only [List.take_succ_cons, List.take_zero, List.cons_append, List.nil_append]
          rw [parseStr_raw b _ (by omega) (by omega) (by omega),
            parseStr_raw b1 _ (by omega) (by omega) (by omega),
            parseStr_raw b2 _ (by omega) (by omega) (by omega),
            parseStr_escapeSimple f t' (by simp at ht; omega) rest]
          rfl
        · subst hrest
          rw [heq]
          obtain ⟨hb1a, hb1b⟩ := accept4_range b b1 hacc
          obtain ⟨hb2a, hb2b⟩ := isCont_range b2 hc2'
          obtain ⟨hb3a, hb3b⟩ := isCont_range b3 hc3'
          have hd : List.drop (4 - 1) (b1 :: b2 :: b3 :: t') = t' := by
            simp
          rw [hd]
          simp only [List.take_succ_cons, List.take_zero, List.cons_append, List.nil_append]
          rw [parseStr_raw b _ (by omega) (by omega) (by omega),
            parseStr_raw b1 _ (by omega) (by omega) (by omega),
            parseStr_raw b2 _ (by omega) (by omega) (by omega),
            parseStr_raw b3 _ (by omega) (by omega) (by omega),
            parseStr_escapeSimple f t' (by simp at ht; omega) rest]
          rfl
    · rw [if_neg hb, if_neg hb]
      by_cases hsafe : 0x20 ≤ b ∧ b ≠ 92 ∧ b ≠ 34
      · rw [if_pos hsafe]
        rw [List.cons_append,
          parseStr_raw b _ hsafe.1 hsafe.2.2 hsafe.2.1,
          parseStr_escapeSimple f t ht rest]
        rfl
      · rw [if_neg hsafe]
        unfold escByte
        by_cases h92 : b = 92 ∨ b = 34
        · rw [if_pos h92]
          have hesc : escDecode b = some b := by
            rcases h92 with rfl | rfl <;> rfl
          simp only [List.cons_append, List.nil_append]
          rw [parseStr_esc b b _ hesc, parseStr_escapeSimple f t ht rest]
          rfl
        · rw [if_neg h92]
          by_cases h10 : b = 10
          · subst h10
            rw [if_pos rfl]
            simp only [List.cons_append, List.nil_append]
            rw [parseStr_esc 110 10 _ (by rfl), parseStr_escapeSimple f t ht rest]
            rfl
          · rw [if_neg h10]
            by_cases h13 : b = 13
            · subst h13
              rw [if_pos rfl]
              simp only [List.cons_append, List.nil_append]
              rw [parseStr_esc 114 13 _ (by rfl), parseStr_escapeSimple f t ht rest]
              rfl
            · rw [if_neg h13]
              by_cases h9 : b = 9
              · subst h9
                rw [if_pos rfl]
                simp only [List.cons_append, List.nil_append]
                rw [parseStr_esc 116 9 _ (by rfl), parseStr_escapeSimple f t ht rest]
                rfl
              · rw [if_neg h9]
                have hlt : b < 0x20 := by omega
                have hdiv : b / 16 ≤ 15 := by omega
                have hmod : b % 16 ≤ 15 := by omega
                have hok : hex4Ok 48 48 (hexDigitByte (b / 16)) (hexDigitByte (b % 16)) =
                    true := by
                  unfold hex4Ok
                  rw [isHexDigit_hexDigitByte _ hdiv, isHexDigit_hexDigitByte _ hmod]
                  rfl
                have hval : hex4Val 48 48 (hexDigitByte (b / 16)) (hexDigitByte (b % 16)) =
                    b := by
                  unfold hex4Val
                  rw [hexVal_hexDigitByte _ hdiv, hexVal_hexDigitByte _ hmod]
                  have h48 : hexVal 48 = 0 := by rfl
                  rw [h48]
                  omega
                simp only [List.cons_append, List.nil_append]
                rw [parseStr_u 48 48 (hexDigitByte (b / 16)) (hexDigitByte (b % 16)) _
                  hok (by omega), parseStr_escapeSimple f t ht rest]
                rw [hval]
                have henc : utf8Encode b = [b] := by
                  unfold utf8Encode
                  rw [if_pos (by omega)]
                rw [henc]
                rfl

/-! ## Decimal rendering, embedding `strconv.AppendInt` / `AppendUint` -/

/-- Decimal digit bytes of a natural number, most significant first
(fuelled). -/
def natDigitsF : Nat → Nat → List Nat
  | 0, _ => []
  | f+1, n => if n < 10 then [48 + n] else natDigitsF f (n / 10) ++ [48 + n % 10]

/-- Decimal digit bytes of a natural number. -/
def natDigits (n : Nat) : List Nat := natDigitsF (n + 1) n

theorem natDigitsF_congr :
    ∀ (f1 f2 n : Nat), n < f1 → n < f2 → natDigitsF f1 n = natDigitsF f2 n
  | 0, _, n, h1, _ => by omega
  | _+1, 0, n, _, h2 => by omega
  | f1+1, f2+1, n, h1, h2 => by
    simp only [natDigitsF]
    by_cases hn : n < 10
    · rw [if_pos hn, if_pos hn]
    · rw [if_neg hn, if_neg hn, natDigitsF_congr f1 f2 (n / 10) (by omega) (by omega)]

theorem natDigits_lt10 (n : Nat) (h : n < 10) : natDigits n = [48 + n] := by
  unfold natDigits natDigitsF
  rw [if_pos h]

theorem natDigits_ge10 (n : Nat) (h : 10 ≤ n) :
    natDigits n = natDigits (n / 10) ++ [48 + n % 10] := by
  show natDigitsF (n + 1) n = _
  simp only [natDigitsF]
  rw [if_neg (by omega), natDigitsF_congr n (n / 10 + 1) (n / 10) (by omega) (by omega)]
  rfl

/-- Every rendered byte is a decimal digit. -/
theorem natDigits_digits :
    ∀ (f n : Nat), n < f → ∀ x ∈ natDigitsF f n, 48 ≤ x ∧ x ≤ 57
  | 0, n, h1 => absurd h1 (by omega)
  | f+1, n, h1 => by
    simp only [natDigitsF]
    by_cases hn : n < 10
    · rw [if_pos hn]
      intro x hx
      simp at hx
      omega
    · rw [if_neg hn]
      intro x hx
      rcases List.mem_append.1 hx with hx1 | hx2
      · exact natDigits_digits f (n / 10) (by omega) x hx1
      · simp at hx2
        have := Nat.mod_lt n (show 0 < 10 by omega)
        omega

/-- The digit string is nonempty, and for a positive number its leading
digit is nonzero. -/
theorem natDigits_head :
    ∀ (f n : Nat), n < f → ∃ d t, natDigitsF f n = d :: t ∧ 48 ≤ d ∧ d ≤ 57 ∧
      (1 ≤ n → 49 ≤ d)
  | 0, n, h1 => absurd h1 (by omega)
  | f+1, n, h1 => by
    simp only [natDigitsF]
    by_cases hn : n < 10
    · rw [if_pos hn]
      exact ⟨48 + n, [], rfl, by omega, by omega, by omega⟩
    · rw [if_neg hn]
      obtain ⟨d, t, heq, hd1, hd2, hd3⟩ := natDigits_head f (n / 10) (by omega)
      refine ⟨d, t ++ [48 + n % 10], ?_, hd1, hd2, fun _ => hd3 (by omega)⟩
      rw [heq]
      rfl

/-- Numeric value recovered from digit bytes (as a JSON number parser
accumulates it). -/
def digitsVal (ds : List Nat) : Nat := ds.foldl (fun a d => a * 10 + (d - 48)) 0

theorem digitsVal_go :
    ∀ (f n a : Nat), n < f →
      List.foldl (fun a d => a * 10 + (d - 48)) a (natDigitsF f n) =
        a * 10 ^ (natDigitsF f n).length + n
  | 0, n, a, h1 => absurd h1 (by omega)
  | f+1, n, a, h1 => by
    simp only [natDigitsF]
    by_cases hn : n < 10
    · rw [if_pos hn]
      simp only [List.foldl_cons, List.foldl_nil, List.length_cons, List.length_nil]
      have h1 : 48 + n - 48 = n := by omega
      rw [h1]
      ring_nf
    · rw [if_neg hn]
      rw [List.foldl_append, digitsVal_go f (n / 10) a (by omega)]
      simp only [List.foldl_cons, List.foldl_nil, List.length_append, List.length_cons,
        List.length_nil]
      have h1 : 48 + n % 10 - 48 = n % 10 := by omega
      rw [h1]
      have h2 : (10 : Nat) ^ ((natDigitsF f (n / 10)).length + (0 + 1)) =
          10 ^ (natDigitsF f (n / 10)).length * 10 := by ring
      rw [h2]
      have h3 : (a * 10 ^ (natDigitsF f (n / 10)).length + n / 10) * 10 + n % 10 =
          a * (10 ^ (natDigitsF f (n / 10)).length * 10) + (n / 10 * 10 + n % 10) := by ring
      rw [h3]
      have h4 : n / 10 * 10 + n % 10 = n := by omega
      rw [h4]

theorem digitsVal_natDigits (n : Nat) : digitsVal (natDigits n) = n := by
  unfold digitsVal natDigits
  rw [digitsVal_go (n + 1) n 0 (by omega)]
  simp

/-- Embedding of `strconv.AppendInt(buf, v, 10)`: decimal rendering with a
leading minus for negative values. -/
def appendInt (buf : List Nat) (n : Int) : List Nat :=
  if n < 0 then buf ++ 45 :: natDigits n.natAbs else buf ++ natDigits n.toNat

/-- Embedding of `strconv.AppendUint(buf, v, 10)`. -/
def appendUint (buf : List Nat) (n : Nat) : List Nat := buf ++ natDigits n

/-- Embedding of `strconv.AppendBool`. -/
def appendBool (buf : List Nat) (b : Bool) : List Nat :=
  if b then buf ++ [116, 114, 117, 101] else buf ++ [102, 97, 108, 115, 101]

/-! ## Floating point, embedding `appendFloat` (src/fson.go) -/

/-- Modelled from the spec: the output of `strconv.AppendFloat(buf, v, 'f',
-1, bitSize)` for a finite float — Go's shortest fixed-notation decimal
literal that parses back to the same value.  The finite float is carried as
that decimal: sign, integer part, fractional digits.  (Reproducing the
binary-to-shortest-decimal algorithm itself is out of scope; its documented
contract — the literal denotes the value uniquely — stands in for it.) -/
structure FiniteFloat where
  neg : Bool
  ip : Nat
  frac : List (Fin 10)

/-- The byte rendering of the decimal literal: optional minus, integer
digits, and a fractional part only when there are fractional digits. -/
def FiniteFloat.bytes (x : FiniteFloat) : List Nat :=
  (if x.neg then [45] else []) ++ natDigits x.ip ++
    (if x.frac = [] then [] else 46 :: x.frac.map (fun d => 48 + d.val))

/-- Rational value denoted by the decimal literal. -/
def FiniteFloat.val (x : FiniteFloat) : ℚ :=
  (if x.neg then -1 else 1) *
    ((x.ip : ℚ) + (digitsVal (x.frac.map (fun d => 48 + d.val)) : ℚ) / (10 : ℚ) ^ x.frac.length)

/-- Classification model of a float64: NaN, the infinities, or a finite
value carried as its rendered decimal (see `FiniteFloat`). -/
inductive F64 where
  | nan
  | posInf
  | negInf
  | finite (x : FiniteFloat)

/-- Embedding of `appendFloat` (src/fson.go): the `math.IsNaN` /
`math.IsInf(·, 1)` / `math.IsInf(·, -1)` switch renders the JSON strings
`"NaN"`, `"+Inf"`, `"-Inf"`; the default branch is
`strconv.AppendFloat(buff, val, 'f', -1, bitSize)`, modelled by the carried
decimal of the finite value. -/
def appendFloat (buff : List Nat) (val : F64) : List Nat :=
  match val with
  | .nan => appendString buff [78, 97, 78]
  | .posInf => appendString buff [43, 73, 110, 102]
  | .negInf => appendString buff [45, 73, 110, 102]
  | .finite x => buff ++ x.bytes

/-! ## The generic array encoder, embedding `appendArray` (src/fson.go) -/

/-- Embedding of `appendArray`: empty slice renders `[]` immediately;
otherwise `[`, the first element, then `,` followed by each later element,
then `]`. -/
def appendArray {α : Type} (buf : List Nat) (vals : List α)
    (appendFn : List Nat → α → List Nat) : List Nat :=
  match vals with
  | [] => buf ++ [91, 93]
  | v :: rest =>
    (rest.foldl (fun b x => appendFn (b ++ [44]) x) (appendFn (buf ++ [91]) v)) ++ [93]

/-! ## The builder operations (src/fson.go), on the byte buffer -/

/-- Embedding of `NewObject`: reset the provided buffer, append the open
brace. -/
def NewObject (buf : List Nat) : List Nat := List.take 0 buf ++ [123]

/-- Embedding of `Key`: escaped key string followed by a colon. -/
def Key (o : List Nat) (key : List Nat) : List Nat := appendString o key ++ [58]

/-- Embedding of `NullValue`: the `null` literal and a trailing comma. -/
def NullValue (o : List Nat) : List Nat := o ++ [110, 117, 108, 108] ++ [44]

/-- Embedding of `StringValue`. -/
def StringValue (o : List Nat) (value : List Nat) : List Nat := appendString o value ++ [44]

/-- Embedding of `BoolValue`. -/
def BoolValue (o : List Nat) (value : Bool) : List Nat := appendBool o value ++ [44]

/-- Embedding of `Int64Value`, the base signed-integer method. -/
def Int64Value (o : List Nat) (value : Int) : List Nat := appendInt o value ++ [44]

/-- Embedding of `IntValue`: delegates to `Int64Value` after `int64(value)`
widening (value-preserving). -/
def IntValue (o : List Nat) (value : Int) : List Nat := Int64Value o value

/-- Embedding of `Int8Value`: delegates to `Int64Value`. -/
def Int8Value (o : List Nat) (value : Int) : List Nat := Int64Value o value

/-- Embedding of `Int16Value`: delegates to `Int64Value`. -/
def Int16Value (o : List Nat) (value : Int) : List Nat := Int64Value o value

/-- Embedding of `Int32Value`: delegates to `Int64Value`. -/
def Int32Value (o : List Nat) (value : Int) : List Nat := Int64Value o value

/-- Embedding of `Uint64Value`, the base unsigned-integer method. -/
def Uint64Value (o : List Nat) (value : Nat) : List Nat := appendUint o value ++ [44]

/-- Embedding of `UintValue`: delegates to `Uint64Value`. -/
def UintValue (o : List Nat) (value : Nat) : List Nat := Uint64Value o value

/-- Embedding of `Uint8Value`: delegates to `Uint64Value`. -/
def Uint8Value (o : List Nat) (value : Nat) : List Nat := Uint64Value o value

/-- Embedding of `Uint16Value`: delegates to `Uint64Value`. -/
def Uint16Value (o : List Nat) (value : Nat) : List Nat := Uint64Value o value

/-- Embedding of `Uint32Value`: delegates to `Uint64Value`. -/
def Uint32Value (o : List Nat) (value : Nat) : List Nat := Uint64Value o value

/-- Embedding of `Float64Value`, the base floating-point method. -/
def Float64Value (o : List Nat) (value : F64) : List Nat := appendFloat o value ++ [44]

/-- Embedding of `Float32Value`: delegates to `Float64Value` after
`float64(value)` widening (exact). -/
def Float32Value (o : List Nat) (value : F64) : List Nat := Float64Value o value

/-- Embedding of `StringsValue`: the generic array encoder over
`appendString`, then the trailing comma. -/
def StringsValue (o : List Nat) (value : List (List Nat)) : List Nat :=
  appendArray o value appendString ++ [44]

/-- Embedding of `Ints64Value`: the generic array encoder over
`strconv.AppendInt`, then the trailing comma. -/
def Ints64Value (o : List Nat) (value : List Int) : List Nat :=
  appendArray o value appendInt ++ [44]

/-- Embedding of `IntsValue`: the generic array encoder with each element
widened by `int64(value)` (value-preserving) before `strconv.AppendInt`,
then the trailing comma — the same bytes as `Ints64Value`. -/
def IntsValue (o : List Nat) (value : List Int) : List Nat :=
  appendArray o value appendInt ++ [44]

/-- Embedding of `Ints8Value`: elementwise `int64(value)` widening, then
`strconv.AppendInt` under the generic array encoder, then the comma. -/
def Ints8Value (o : List Nat) (value : List Int) : List Nat :=
  appendArray o value appendInt ++ [44]

/-- Embedding of `Ints16Value`, as `Ints8Value`. -/
def Ints16Value (o : List Nat) (value : List Int) : List Nat :=
  appendArray o value appendInt ++ [44]

/-- Embedding of `Ints32Value`, as `Ints8Value`. -/
def Ints32Value (o : List Nat) (value : List Int) : List Nat :=
  appendArray o value appendInt ++ [44]

/-- Embedding of `Uints64Value`: the generic array encoder over
`strconv.AppendUint`, then the trailing comma. -/
def Uints64Value (o : List Nat) (value : List Nat) : List Nat :=
  appendArray o value appendUint ++ [44]

/-- Embedding of `UintsValue`: elementwise `uint64(value)` widening
(value-preserving), then `strconv.AppendUint` under the generic array
encoder, then the comma — the same bytes as `Uints64Value`. -/
def UintsValue (o : List Nat) (value : List Nat) : List Nat :=
  appendArray o value appendUint ++ [44]

/-- Embedding of `Uints8Value`, as `UintsValue`. -/
def Uints8Value (o : List Nat) (value : List Nat) : List Nat :=
  appendArray o value appendUint ++ [44]

/-- Embedding of `Uints16Value`, as `UintsValue`. -/
def Uints16Value (o : List Nat) (value : List Nat) : List Nat :=
  appendArray o value appendUint ++ [44]

/-- Embedding of `Uints32Value`, as `UintsValue`. -/
def Uints32Value (o : List Nat) (value : List Nat) : List Nat :=
  appendArray o value appendUint ++ [44]

/-- Embedding of `Floats64Value`: the generic array encoder over
`appendFloat`, then the trailing comma. -/
def Floats64Value (o : List Nat) (value : List F64) : List Nat :=
  appendArray o value appendFloat ++ [44]

/-- Embedding of `Floats32Value`: elementwise `float64(value)` widening
(exact), then `appendFloat` under the generic array encoder, then the
comma — the same bytes as `Floats64Value`. -/
def Floats32Value (o : List Nat) (value : List F64) : List Nat :=
  appendArray o value appendFloat ++ [44]

/-- Embedding of `BoolsValue`: the generic array encoder over
`strconv.AppendBool`, then the trailing comma. -/
def BoolsValue (o : List Nat) (value : List Bool) : List Nat :=
  appendArray o value appendBool ++ [44]

/-- Embedding of `appendTime` (src/fson.go): a double quote, the bytes
`t.AppendFormat(buf, format)` writes — copied verbatim, with no escaping —
then the closing double quote.  The formatted output is carried as the byte
list `formatted`. -/
def appendTime (buf : List Nat) (formatted : List Nat) : List Nat :=
  (buf ++ [34]) ++ formatted ++ [34]

/-- Embedding of `TimeValue`: `appendTime`, then the trailing comma. -/
def TimeValue (o : List Nat) (formatted : List Nat) : List Nat :=
  appendTime o formatted ++ [44]

/-- Embedding of `TimesValue`: the generic array encoder over `appendTime`
(each element carried as its formatted bytes), then the trailing comma. -/
def TimesValue (o : List Nat) (value : List (List Nat)) : List Nat :=
  appendArray o value appendTime ++ [44]

/-- Embedding of `DurationValue`: the source delegates to
`StringValue(value.String())`; the duration is carried as the bytes of its
`String()` rendering. -/
def DurationValue (o : List Nat) (s : List Nat) : List Nat := StringValue o s

/-- Embedding of `DurationsValue`: the generic array encoder over
`appendString` applied to each duration's `String()` bytes, then the
comma. -/
def DurationsValue (o : List Nat) (value : List (List Nat)) : List Nat :=
  appendArray o value appendString ++ [44]

/-- Embedding of `StartObject`. -/
def StartObject (o : List Nat) : List Nat := o ++ [123]

/-- Embedding of `StartArray`. -/
def StartArray (o : List Nat) : List Nat := o ++ [91]

/-- Embedding of `EndObject`: reads the unguarded last byte (`none` models
the panic on an empty buffer, which the source never guards); appends `}` on
an empty object, otherwise overwrites the final byte with `}`; then appends
the comma. -/
def EndObject (o : List Nat) : Option (List Nat) :=
  match o.getLast? with
  | none => none
  | some b => some ((if b = 123 then o else o.dropLast) ++ [125, 44])

/-- Embedding of `EndArray`, symmetric to `EndObject` with brackets. -/
def EndArray (o : List Nat) : Option (List Nat) :=
  match o.getLast? with
  | none => none
  | some b => some ((if b = 91 then o else o.dropLast) ++ [93, 44])

/-- Embedding of `Build`: if the last byte is not the open brace, overwrite
it with `}`; otherwise append `}`. -/
def Build (o : List Nat) : Option (List Nat) :=
  match o.getLast? with
  | none => none
  | some b => some (if b ≠ 123 then o.dropLast ++ [125] else o ++ [125])

/-- Modelled from the spec: the `Reset()` builder operation, which is called
by the repository's tests but whose body is not among the source files —
"truncate buffer to zero length, append the open brace". -/
def Reset (o : List Nat) : List Nat := List.take 0 o ++ [123]

/-! ## A byte-level JSON validator (RFC 8259), with numeric values -/

def isWsB (b : Nat) : Bool := b = 32 || b = 9 || b = 10 || b = 13

/-- Skip insignificant whitespace. -/
def skipWs (s : List Nat) : List Nat := s.dropWhile isWsB

/-- Consume an expected literal tail (`ull`, `rue`, `alse`). -/
def stripPre : List Nat → List Nat → Option (List Nat)
  | [], s => some s
  | _ :: _, [] => none
  | p :: ps, b :: s => if b = p then stripPre ps s else none

/-- Exponent digits with their value. -/
def expDigits (s : List Nat) : Option (Int × List Nat) :=
  match s with
  | [] => none
  | d :: _ =>
    if isDigit d then
      some ((digitsVal (s.takeWhile isDigit) : Int), s.dropWhile isDigit)
    else none

/-- Optional exponent part of a JSON number, as a power of ten. -/
def parseExpPart (s : List Nat) : Option (Int × List Nat) :=
  match s with
  | [] => some (0, [])
  | b :: r =>
    if b = 101 ∨ b = 69 then
      match r with
      | [] => none
      | c :: r2 =>
        if c = 43 then expDigits r2
        else if c = 45 then (expDigits r2).map (fun p => (-p.1, p.2))
        else expDigits r
    else some (0, b :: r)

/-- Optional fraction part of a JSON number, as a rational in `[0, 1)`. -/
def parseFracPart (s : List Nat) : Option (ℚ × List Nat) :=
  match s with
  | [] => some (0, [])
  | b :: r =>
    if b = 46 then
      match r with
      | [] => none
      | d :: _ =>
        if isDigit d then
          some ((digitsVal (r.takeWhile isDigit) : ℚ) / (10 : ℚ) ^ (r.takeWhile isDigit).length,
            r.dropWhile isDigit)
        else none
    else some (0, b :: r)

/-- Unsigned JSON number: `0` or a nonzero-leading digit run, then optional
fraction and exponent; returns the denoted rational and the rest. -/
def parseUNumberVal (s : List Nat) : Option (ℚ × List Nat) :=
  match s with
  | [] => none
  | b :: r =>
    if b = 48 then
      (parseFracPart r).bind fun fp =>
        (parseExpPart fp.2).map fun ep => ((0 + fp.1) * (10 : ℚ) ^ ep.1, ep.2)
    else if isDigit b then
      (parseFracPart ((b :: r).dropWhile isDigit)).bind fun fp =>
        (parseExpPart fp.2).map fun ep =>
          (((digitsVal ((b :: r).takeWhile isDigit) : ℚ) + fp.1) * (10 : ℚ) ^ ep.1, ep.2)
    else none

/-- JSON number with optional leading minus; returns the denoted rational
and the rest. -/
def parseNumberVal (s : List Nat) : Option (ℚ × List Nat) :=
  match s with
  | [] => none
  | b :: r =>
    if b = 45 then (parseUNumberVal r).map (fun p => (-p.1, p.2))
    else parseUNumberVal (b :: r)

mutual

/-- Fuelled RFC 8259 value parser: consumes one JSON value, returns the
rest.  The fuel is spent once per nesting/iteration step. -/
def parseValue : Nat → List Nat → Option (List Nat)
  | 0, _ => none
  | f+1, s =>
    match s with
    | [] => none
    | b :: r =>
      if b = 110 then stripPre [117, 108, 108] r
      else if b = 116 then stripPre [114, 117, 101] r
      else if b = 102 then stripPre [97, 108, 115, 101] r
      else if b = 34 then (parseStr r).map (fun p => p.2)
      else if b = 123 then
        match skipWs r with
        | [] => none
        | c :: r2 => if c = 125 then some r2 else parseMembers f (c :: r2)
      else if b = 91 then
        match skipWs r with
        | [] => none
        | c :: r2 => if c = 93 then some r2 else parseElems f (c :: r2)
      else (parseNumberVal (b :: r)).map (fun p => p.2)

/-- Object members: `"key" ws : element` separated by commas, closed by a
brace. -/
def parseMembers : Nat → List Nat → Option (List Nat)
  | 0, _ => none
  | f+1, s =>
    match s with
    | [] => none
    | b :: r =>
      if b = 34 then
        match parseStr r with
        | none => none
        | some (_, r1) =>
          match skipWs r1 with
          | [] => none
          | c :: r2 =>
            if c = 58 then
              match parseValue f (skipWs r2) with
              | none => none
              | some r3 =>
                match skipWs r3 with
                | [] => none
                | d :: r4 =>
                  if d = 44 then parseMembers f (skipWs r4)
                  else if d = 125 then some r4
                  else none
            else none
      else none

/-- Array elements separated by commas, closed by a bracket. -/
def parseElems : Nat → List Nat → Option (List Nat)
  | 0, _ => none
  | f+1, s =>
    match parseValue f (skipWs s) with
    | none => none
    | some r =>
      match skipWs r with
      | [] => none
      | d :: r2 =>
        if d = 44 then parseElems f (skipWs r2)
        else if d = 93 then some r2
        else none

end

/-- A JSON text: whitespace, one value, whitespace. -/
def parseElement (fuel : Nat) (s : List Nat) : Option (List Nat) :=
  (parseValue fuel (skipWs s)).map skipWs

/-- RFC 8259 validity of a byte sequence: the whole input is one JSON
text. -/
def jsonValid (s : List Nat) : Bool :=
  match parseElement (s.length + 1) s with
  | some [] => true
  | _ => false

/-! ## Abstract JSON documents and their rendering -/

mutual

/-- Abstract JSON values built by the encoder: the scalar kinds of the
builder API plus nested arrays and objects. -/
inductive JVal where
  | jnull
  | jbool (b : Bool)
  | jint (n : Int)
  | juint (n : Nat)
  | jstr (s : List Nat)
  | jfloat (v : F64)
  | jarr (es : JList)
  | jobj (ms : JMembers)

/-- A list of JSON values (array elements). -/
inductive JList where
  | nil
  | cons (v : JVal) (t : JList)

/-- A list of key/value members (object members, in insertion order). -/
inductive JMembers where
  | nil
  | cons (k : List Nat) (v : JVal) (t : JMembers)

end

mutual

/-- Bytes of a complete JSON value, exactly as the encoder emits them. -/
def renderVal : JVal → List Nat
  | .jnull => [110, 117, 108, 108]
  | .jbool b => if b then [116, 114, 117, 101] else [102, 97, 108, 115, 101]
  | .jint n => appendInt [] n
  | .juint n => natDigits n
  | .jstr s => 34 :: escapeSimple s ++ [34]
  | .jfloat v => appendFloat [] v
  | .jarr es => 91 :: renderList es ++ [93]
  | .jobj ms => 123 :: renderMembers ms ++ [125]

/-- Comma-separated array elements (no brackets). -/
def renderList : JList → List Nat
  | .nil => []
  | .cons v t => renderVal v ++ renderListTail t

/-- The later elements, each preceded by its separating comma. -/
def renderListTail : JList → List Nat
  | .nil => []
  | .cons v t => 44 :: (renderVal v ++ renderListTail t)

/-- Comma-separated object members (no braces). -/
def renderMembers : JMembers → List Nat
  | .nil => []
  | .cons k v t => 34 :: (escapeSimple k ++ 34 :: 58 :: (renderVal v ++ renderMembersTail t))

/-- The later members, each preceded by its separating comma. -/
def renderMembersTail : JMembers → List Nat
  | .nil => []
  | .cons k v t => 44 :: 34 :: (escapeSimple k ++ 34 :: 58 :: (renderVal v ++ renderMembersTail t))

end

theorem renderListTail_cons (v : JVal) (t : JList) :
    renderListTail (.cons v t) = 44 :: renderList (.cons v t) := rfl

theorem renderMembersTail_cons (k : List Nat) (v : JVal) (t : JMembers) :
    renderMembersTail (.cons k v t) = 44 :: renderMembers (.cons k v t) := rfl

mutual

/-- Fuel needed by the validator on the rendered bytes of a value. -/
def steps : JVal → Nat
  | .jarr es => 1 + stepsList es
  | .jobj ms => 1 + stepsMembers ms
  | _ => 1

/-- Fuel needed on a rendered element list. -/
def stepsList : JList → Nat
  | .nil => 1
  | .cons v t => 1 + max (steps v) (stepsList t)

/-- Fuel needed on a rendered member list. -/
def stepsMembers : JMembers → Nat
  | .nil => 1
  | .cons _ v t => 1 + max (steps v) (stepsMembers t)

end

theorem steps_pos (v : JVal) : 1 ≤ steps v := by
  cases v <;> simp [steps]

/-- The first byte of any rendered value is never whitespace, a comma, a
closing bracket or a closing brace, and never a byte that extends a number. -/
theorem renderVal_head (v : JVal) :
    ∃ h t, renderVal v = h :: t ∧ isWsB h = false ∧ h ≠ 44 ∧ h ≠ 93 ∧ h ≠ 125 := by
  cases v with
  | jnull => exact ⟨110, _, rfl, by decide, by decide, by decide, by decide⟩
  | jbool b =>
    cases b
    · exact ⟨102, [97, 108, 115, 101], rfl, by decide, by decide, by decide, by decide⟩
    · exact ⟨116, [114, 117, 101], rfl, by decide, by decide, by decide, by decide⟩
  | jint n =>
    by_cases hn : n < 0
    · refine ⟨45, natDigits n.natAbs, ?_, by decide, by decide, by decide, by decide⟩
      simp [renderVal, appendInt, hn]
    · obtain ⟨d, t, heq, hd1, hd2, _⟩ := natDigits_head (n.toNat + 1) n.toNat (by omega)
      refine ⟨d, t, ?_, ?_, by omega, by omega, by omega⟩
      · simp only [renderVal, appendInt, if_neg hn, List.nil_append]
        exact heq
      · simp [isWsB]
        omega
  | juint n =>
    obtain ⟨d, t, heq, hd1, hd2, _⟩ := natDigits_head (n + 1) n (by omega)
    refine ⟨d, t, heq, ?_, by omega, by omega, by omega⟩
    simp [isWsB]
    omega
  | jstr s => exact ⟨34, _, rfl, by decide, by decide, by decide, by decide⟩
  | jfloat v =>
    cases v with
    | nan =>
      exact ⟨34, [78, 97, 78, 34], by decide, by decide, by decide, by decide, by decide⟩
    | posInf =>
      exact ⟨34, [43, 73, 110, 102, 34], by decide, by decide, by decide, by decide, by decide⟩
    | negInf =>
      exact ⟨34, [45, 73, 110, 102, 34], by decide, by decide, by decide, by decide, by decide⟩
    | finite x =>
      show ∃ h t, appendFloat [] (.finite x) = h :: t ∧ _
      by_cases hneg : x.neg
      · refine ⟨45, natDigits x.ip ++
          (if x.frac = [] then [] else 46 :: x.frac.map (fun d => 48 + d.val)), ?_,
          by decide, by decide, by decide, by decide⟩
        simp [appendFloat, FiniteFloat.bytes, hneg]
      · obtain ⟨d, t, heq, hd1, hd2, _⟩ := natDigits_head (x.ip + 1) x.ip (by omega)
        have heq2 : appendFloat [] (.finite x) = d ::
            (t ++ (if x.frac = [] then [] else 46 :: x.frac.map (fun d => 48 + d.val))) := by
          simp only [appendFloat, FiniteFloat.bytes, if_neg hneg, List.nil_append]
          rw [show natDigits x.ip = natDigitsF (x.ip + 1) x.ip from rfl, heq]
          simp
        refine ⟨d, _, heq2, ?_, by omega, by omega, by omega⟩
        simp [isWsB]
        omega
  | jarr es => exact ⟨91, _, rfl, by decide, by decide, by decide, by decide⟩
  | jobj ms => exact ⟨123, _, rfl, by decide, by decide, by decide, by decide⟩

/-! ## Parsing back rendered numbers -/

/-- What may legally follow a complete rendered value: nothing, or a byte
that neither extends a number nor is itself part of the value. -/
def numOk (rest : List Nat) : Prop :=
  ∀ b, rest.head? = some b → isDigit b = false ∧ b ≠ 46 ∧ b ≠ 101 ∧ b ≠ 69

theorem numOk_nil : numOk [] := fun b h => by simp at h

theorem numOk_cons (b : Nat) (r : List Nat) (h : b = 44 ∨ b = 58 ∨ b = 93 ∨ b = 125) :
    numOk (b :: r) := by
  intro c hc
  simp at hc
  subst hc
  rcases h with rfl | rfl | rfl | rfl <;> exact ⟨by decide, by decide, by decide, by decide⟩

/-- Splitting a digit run followed by a non-digit. -/
theorem takeWhile_digits (ds rest : List Nat) (hds : ∀ x ∈ ds, isDigit x = true)
    (hrest : ∀ b, rest.head? = some b → isDigit b = false) :
    (ds ++ rest).takeWhile isDigit = ds ∧ (ds ++ rest).dropWhile isDigit = rest := by
  induction ds with
  | nil =>
    cases rest with
    | nil => simp
    | cons b r =>
      have hb := hrest b rfl
      simp [List.takeWhile_cons, List.dropWhile_cons, hb]
  | cons d ds ih =>
    have hd := hds d (by simp)
    have ih2 := ih (fun x hx => hds x (by simp [hx]))
    simp only [List.cons_append, List.takeWhile_cons, List.dropWhile_cons, hd]
    simp [ih2.1, ih2.2]

theorem parseFracPart_none (s : List Nat) (h : ∀ b, s.head? = some b → b ≠ 46) :
    parseFracPart s = some (0, s) := by
  cases s with
  | nil => rfl
  | cons b r => simp [parseFracPart, h b rfl]

theorem parseExpPart_none (s : List Nat) (h : ∀ b, s.head? = some b → b ≠ 101 ∧ b ≠ 69) :
    parseExpPart s = some (0, s) := by
  cases s with
  | nil => rfl
  | cons b r =>
    have hb := h b rfl
    simp [parseExpPart, hb.1, hb.2]

theorem parseFracPart_digits (ds rest : List Nat) (hne : ds ≠ [])
    (hds : ∀ x ∈ ds, isDigit x = true) (hrest : numOk rest) :
    parseFracPart (46 :: (ds ++ rest)) =
      some ((digitsVal ds : ℚ) / (10 : ℚ) ^ ds.length, rest) := by
  obtain ⟨d, ds', rfl⟩ : ∃ d ds', ds = d :: ds' := by
    cases ds with
    | nil => exact absurd rfl hne
    | cons d ds' => exact ⟨d, ds', rfl⟩
  have hd : isDigit d = true := hds d (by simp)
  have hsplit := takeWhile_digits (d :: ds') rest hds (fun b hb => (hrest b hb).1)
  simp only [List.cons_append] at hsplit
  show parseFracPart (46 :: (d :: (ds' ++ rest))) = _
  simp only [parseFracPart, hd, if_true, hsplit.1, hsplit.2]

theorem parseUNumber_natDigits (n : Nat) (rest : List Nat) (hrest : numOk rest) :
    parseUNumberVal (natDigits n ++ rest) = some ((n : ℚ), rest) := by
  by_cases hn : n = 0
  · subst hn
    rw [natDigits_lt10 0 (by omega)]
    show parseUNumberVal (48 :: rest) = _
    simp only [parseUNumberVal, if_true]
    rw [parseFracPart_none rest (fun b hb => (hrest b hb).2.1)]
    simp only [Option.some_bind]
    rw [parseExpPart_none rest (fun b hb => (hrest b hb).2.2)]
    simp
  · obtain ⟨d, t, heq, hd1, hd2, hd3⟩ := natDigits_head (n + 1) n (by omega)
    have heq' : natDigits n = d :: t := heq
    have hd49 : 49 ≤ d := hd3 (by omega)
    have hdig : ∀ x ∈ natDigits n, isDigit x = true := by
      intro x hx
      have := natDigits_digits (n + 1) n (by omega) x hx
      simp [isDigit]
      omega
    have hdig' : ∀ x ∈ d :: t, isDigit x = true := by
      rw [← heq']
      exact hdig
    have hsplit := takeWhile_digits (d :: t) rest hdig' (fun b hb => (hrest b hb).1)
    simp only [List.cons_append] at hsplit
    rw [heq', List.cons_append]
    simp only [parseUNumberVal]
    rw [if_neg (show ¬d = 48 by omega),
      if_pos (show isDigit d = true by simp [isDigit]; omega)]
    rw [hsplit.1, hsplit.2]
    rw [parseFracPart_none rest (fun b hb => (hrest b hb).2.1)]
    simp only [Option.some_bind]
    rw [parseExpPart_none rest (fun b hb => (hrest b hb).2.2)]
    have hv : digitsVal (d :: t) = n := by
      rw [← heq']
      exact digitsVal_natDigits n
    rw [hv]
    simp

/-- Unsigned number with a fractional part. -/
theorem parseUNumber_frac (n : Nat) (ds rest : List Nat) (hne : ds ≠ [])
    (hds : ∀ x ∈ ds, isDigit x = true) (hrest : numOk rest) :
    parseUNumberVal (natDigits n ++ 46 :: (ds ++ rest)) =
      some ((n : ℚ) + (digitsVal ds : ℚ) / (10 : ℚ) ^ ds.length, rest) := by
  have hfrac := parseFracPart_digits ds rest hne hds hrest
  by_cases hn : n = 0
  · subst hn
    rw [natDigits_lt10 0 (by omega)]
    show parseUNumberVal (48 :: (46 :: (ds ++ rest))) = _
    simp only [parseUNumberVal, if_true]
    rw [hfrac]
    simp only [Option.some_bind]
    rw [parseExpPart_none rest (fun b hb => (hrest b hb).2.2)]
    simp
  · obtain ⟨d, t, heq, hd1, hd2, hd3⟩ := natDigits_head (n + 1) n (by omega)
    have heq' : natDigits n = d :: t := heq
    have hd49 : 49 ≤ d := hd3 (by omega)
    have hdig' : ∀ x ∈ d :: t, isDigit x = true := by
      rw [← heq']
      intro x hx
      have := natDigits_digits (n + 1) n (by omega) x hx
      simp [isDigit]
      omega
    have hsplit := takeWhile_digits (d :: t) (46 :: (ds ++ rest)) hdig'
      (fun b hb => by simp at hb; subst hb; rfl)
    simp only [List.cons_append] at hsplit
    rw [heq', List.cons_append]
    simp only [parseUNumberVal]
    rw [if_neg (show ¬d = 48 by omega),
      if_pos (show isDigit d = true by simp [isDigit]; omega)]
    rw [hsplit.1, hsplit.2, hfrac]
    simp only [Option.some_bind]
    rw [parseExpPart_none rest (fun b hb => (hrest b hb).2.2)]
    have hv : digitsVal (d :: t) = n := by
      rw [← heq']
      exact digitsVal_natDigits n
    rw [hv]
    simp

/-- A rendered natural number parses back unsigned through the signed
entry. -/
theorem parseNumberVal_natDigits (n : Nat) (rest : List Nat) (hrest : numOk rest) :
    parseNumberVal (natDigits n ++ rest) = some ((n : ℚ), rest) := by
  obtain ⟨d, t, heq, hd1, hd2, _⟩ := natDigits_head (n + 1) n (by omega)
  have heq' : natDigits n = d :: t := heq
  rw [heq', List.cons_append]
  simp only [parseNumberVal]
  rw [if_neg (show ¬d = 45 by omega), ← List.cons_append, ← heq']
  exact parseUNumber_natDigits n rest hrest

/-- A rendered signed integer parses back to itself. -/
theorem parseNumberVal_appendInt (v : Int) (rest : List Nat) (hrest : numOk rest) :
    parseNumberVal (appendInt [] v ++ rest) = some ((v : ℚ), rest) := by
  by_cases hv : v < 0
  · have hshape : appendInt [] v = 45 :: natDigits v.natAbs := by
      simp [appendInt, hv]
    rw [hshape, List.cons_append]
    simp only [parseNumberVal, if_true]
    rw [parseUNumber_natDigits v.natAbs rest hrest]
    have h1 : ((v.natAbs : ℚ)) = -(v : ℚ) := by
      have h2 : (v.natAbs : Int) = -v := by omega
      calc ((v.natAbs : ℚ)) = (((v.natAbs : Int) : ℚ)) := (Int.cast_natCast v.natAbs).symm
        _ = ((-v : Int) : ℚ) := by rw [h2]
        _ = -(v : ℚ) := by push_cast; ring
    simp [h1]
  · have hshape : appendInt [] v = natDigits v.toNat := by
      simp [appendInt, hv]
    rw [hshape, parseNumberVal_natDigits v.toNat rest hrest]
    have h1 : ((v.toNat : ℚ)) = (v : ℚ) := by
      have h2 : (v.toNat : Int) = v := by omega
      have h3 : ((v.toNat : Int) : ℚ) = (v : ℚ) := by rw [h2]
      push_cast at h3
      exact h3
    rw [h1]

/-- A rendered finite float parses back to its denoted rational. -/
theorem parseNumberVal_finite (x : FiniteFloat) (rest : List Nat) (hrest : numOk rest) :
    parseNumberVal (x.bytes ++ rest) = some (x.val, rest) := by
  have hmapdig : ∀ y ∈ x.frac.map (fun d => 48 + d.val), isDigit y = true := by
    intro y hy
    simp at hy
    obtain ⟨d, _, rfl⟩ := hy
    have := d.isLt
    simp [isDigit]
    omega
  by_cases hneg : x.neg <;> by_cases hfr : x.frac = []
  · have hshape : x.bytes = 45 :: natDigits x.ip := by
      simp [FiniteFloat.bytes, hneg, hfr]
    rw [hshape, List.cons_append]
    simp only [parseNumberVal, if_true]
    rw [parseUNumber_natDigits x.ip rest hrest]
    unfold FiniteFloat.val
    rw [hfr, hneg]
    simp [digitsVal]
  · have hshape : x.bytes = 45 :: (natDigits x.ip ++
        46 :: x.frac.map (fun d => 48 + d.val)) := by
      simp [FiniteFloat.bytes, hneg, hfr]
    rw [hshape, List.cons_append]
    simp only [parseNumberVal, if_true]
    rw [List.append_assoc, List.cons_append,
      parseUNumber_frac x.ip (x.frac.map (fun d => 48 + d.val)) rest
        (by simp [hfr]) hmapdig hrest]
    unfold FiniteFloat.val
    rw [hneg]
    simp only [if_true, List.length_map]
    norm_num
  · have hshape : x.bytes = natDigits x.ip := by
      simp [FiniteFloat.bytes, hneg, hfr]
    rw [hshape, parseNumberVal_natDigits x.ip rest hrest]
    unfold FiniteFloat.val
    rw [hfr]
    simp [hneg, digitsVal]
  · have hshape : x.bytes = natDigits x.ip ++ 46 :: x.frac.map (fun d => 48 + d.val) := by
      simp [FiniteFloat.bytes, hneg, hfr]
    rw [hshape, List.append_assoc, List.cons_append]
    have hhead : ∃ d t, natDigits x.ip = d :: t ∧ 48 ≤ d := by
      obtain ⟨d, t, heq, hd1, _, _⟩ := natDigits_head (x.ip + 1) x.ip (by omega)
      exact ⟨d, t, heq, hd1⟩
    obtain ⟨d, t, heq, hd1⟩ := hhead
    rw [heq, List.cons_append]
    simp only [parseNumberVal]
    rw [if_neg (show ¬d = 45 by omega), ← List.cons_append, ← heq,
      parseUNumber_frac x.ip (x.frac.map (fun d => 48 + d.val)) rest
        (by simp [hfr]) hmapdig hrest]
    unfold FiniteFloat.val
    simp only [hneg, if_false, List.length_map]
    norm_num

/-! ## Parsing back rendered values -/

theorem skipWs_not (b : Nat) (r : List Nat) (h : isWsB b = false) : skipWs (b :: r) = b :: r := by
  simp [skipWs, List.dropWhile_cons, h]

/-- A value that renders as a number (minus sign or digit first) parses in
one step through the number branch. -/
theorem parseValue_number (f : Nat) (s rest : List Nat) (q : ℚ)
    (hs : ∃ d t, s = d :: t ∧ (d = 45 ∨ (48 ≤ d ∧ d ≤ 57)))
    (hp : parseNumberVal (s ++ rest) = some (q, rest)) :
    parseValue (f + 1) (s ++ rest) = some rest := by
  obtain ⟨d, t, rfl, hd⟩ := hs
  rw [List.cons_append]
  simp only [parseValue]
  rw [if_neg (by omega), if_neg (by omega), if_neg (by omega), if_neg (by omega),
    if_neg (by omega), if_neg (by omega)]
  rw [List.cons_append] at hp
  rw [hp]
  rfl

theorem stepsList_lt_jarr (es : JList) : stepsList es < steps (JVal.jarr es) := by
  simp [steps]

theorem stepsMembers_lt_jobj (ms : JMembers) : stepsMembers ms < steps (JVal.jobj ms) := by
  simp [steps]

theorem steps_lt_stepsList (v : JVal) (t : JList) : steps v < stepsList (JList.cons v t) := by
  have h := Nat.le_max_left (steps v) (stepsList t)
  simp only [stepsList]
  omega

theorem stepsList_tail_lt (v : JVal) (t : JList) :
    stepsList t < stepsList (JList.cons v t) := by
  have h := Nat.le_max_right (steps v) (stepsList t)
  simp only [stepsList]
  omega

theorem steps_lt_stepsMembers (k : List Nat) (v : JVal) (t : JMembers) :
    steps v < stepsMembers (JMembers.cons k v t) := by
  have h := Nat.le_max_left (steps v) (stepsMembers t)
  simp only [stepsMembers]
  omega

theorem stepsMembers_tail_lt (k : List Nat) (v : JVal) (t : JMembers) :
    stepsMembers t < stepsMembers (JMembers.cons k v t) := by
  have h := Nat.le_max_right (steps v) (stepsMembers t)
  simp only [stepsMembers]
  omega

mutual

/-- The validator consumes exactly the rendered bytes of any value. -/
theorem ppVal : ∀ (v : JVal) (fuel : Nat) (rest : List Nat), steps v ≤ fuel → numOk rest →
    parseValue fuel (renderVal v ++ rest) = some rest
  | .jnull, fuel, rest, hf, hrest => by
    obtain ⟨f, rfl⟩ : ∃ f, fuel = f + 1 := ⟨fuel - 1, by simp [steps] at hf; omega⟩
    show parseValue (f + 1) ([110, 117, 108, 108] ++ rest) = some rest
    simp [parseValue, stripPre]
  | .jbool b, fuel, rest, hf, hrest => by
    obtain ⟨f, rfl⟩ : ∃ f, fuel = f + 1 := ⟨fuel - 1, by simp [steps] at hf; omega⟩
    cases b
    · show parseValue (f + 1) ([102, 97, 108, 115, 101] ++ rest) = some rest
      simp [parseValue, stripPre]
    · show parseValue (f + 1) ([116, 114, 117, 101] ++ rest) = some rest
      simp [parseValue, stripPre]
  | .jstr s, fuel, rest, hf, hrest => by
    obtain ⟨f, rfl⟩ : ∃ f, fuel = f + 1 := ⟨fuel - 1, by simp [steps] at hf; omega⟩
    show parseValue (f + 1) ((34 :: (escapeSimple s ++ [34])) ++ rest) = some rest
    have hshape : (34 :: (escapeSimple s ++ [34])) ++ rest =
        34 :: (escapeSimple s ++ 34 :: rest) := by simp
    rw [hshape]
    simp only [parseValue]
    rw [parseStr_escapeSimple s.length s (le_refl _) rest]
    rfl
  | .jint n, fuel, rest, hf, hrest => by
    obtain ⟨f, rfl⟩ : ∃ f, fuel = f + 1 := ⟨fuel - 1, by simp [steps] at hf; omega⟩
    show parseValue (f + 1) (appendInt [] n ++ rest) = some rest
    refine parseValue_number f _ rest (n : ℚ) ?_ (parseNumberVal_appendInt n rest hrest)
    by_cases hn : n < 0
    · exact ⟨45, natDigits n.natAbs, by simp [appendInt, hn], Or.inl rfl⟩
    · obtain ⟨d, t, heq, hd1, hd2, _⟩ := natDigits_head (n.toNat + 1) n.toNat (by omega)
      have heq' : natDigits n.toNat = d :: t := heq
      exact ⟨d, t, by simp only [appendInt, if_neg hn, List.nil_append]; exact heq',
        Or.inr ⟨hd1, hd2⟩⟩
  | .juint n, fuel, rest, hf, hrest => by
    obtain ⟨f, rfl⟩ : ∃ f, fuel = f + 1 := ⟨fuel - 1, by simp [steps] at hf; omega⟩
    show parseValue (f + 1) (natDigits n ++ rest) = some rest
    refine parseValue_number f _ rest (n : ℚ) ?_ (parseNumberVal_natDigits n rest hrest)
    obtain ⟨d, t, heq, hd1, hd2, _⟩ := natDigits_head (n + 1) n (by omega)
    exact ⟨d, t, heq, Or.inr ⟨hd1, hd2⟩⟩
  | .jfloat .nan, fuel, rest, hf, hrest => by
    obtain ⟨f, rfl⟩ : ∃ f, fuel = f + 1 := ⟨fuel - 1, by simp [steps] at hf; omega⟩
    have hshape : renderVal (.jfloat .nan) = [34, 78, 97, 78, 34] := by decide
    rw [hshape]
    show parseValue (f + 1) (34 :: (78 :: 97 :: 78 :: 34 :: rest)) = some rest
    simp only [parseValue]
    rw [parseStr_raw 78 _ (by omega) (by omega) (by omega),
      parseStr_raw 97 _ (by omega) (by omega) (by omega),
      parseStr_raw 78 _ (by omega) (by omega) (by omega), parseStr_quote]
    rfl
  | .jfloat .posInf, fuel, rest, hf, hrest => by
    obtain ⟨f, rfl⟩ : ∃ f, fuel = f + 1 := ⟨fuel - 1, by simp [steps] at hf; omega⟩
    have hshape : renderVal (.jfloat .posInf) = [34, 43, 73, 110, 102, 34] := by decide
    rw [hshape]
    show parseValue (f + 1) (34 :: (43 :: 73 :: 110 :: 102 :: 34 :: rest)) = some rest
    simp only [parseValue]
    rw [parseStr_raw 43 _ (by omega) (by omega) (by omega),
      parseStr_raw 73 _ (by omega) (by omega) (by omega),
      parseStr_raw 110 _ (by omega) (by omega) (by omega),
      parseStr_raw 102 _ (by omega) (by omega) (by omega), parseStr_quote]
    rfl
  | .jfloat .negInf, fuel, rest, hf, hrest => by
    obtain ⟨f, rfl⟩ : ∃ f, fuel = f + 1 := ⟨fuel - 1, by simp [steps] at hf; omega⟩
    have hshape : renderVal (.jfloat .negInf) = [34, 45, 73, 110, 102, 34] := by decide
    rw [hshape]
    show parseValue (f + 1) (34 :: (45 :: 73 :: 110 :: 102 :: 34 :: rest)) = some rest
    simp only [parseValue]
    rw [parseStr_raw 45 _ (by omega) (by omega) (by omega),
      parseStr_raw 73 _ (by omega) (by omega) (by omega),
      parseStr_raw 110 _ (by omega) (by omega) (by omega),
      parseStr_raw 102 _ (by omega) (by omega) (by omega), parseStr_quote]
    rfl
  | .jfloat (.finite x), fuel, rest, hf, hrest => by
    obtain ⟨f, rfl⟩ : ∃ f, fuel = f + 1 := ⟨fuel - 1, by simp [steps] at hf; omega⟩
    show parseValue (f + 1) (x.bytes ++ rest) = some rest
    refine parseValue_number f _ rest x.val ?_ (parseNumberVal_finite x rest hrest)
    by_cases hneg : x.neg
    · exact ⟨45, natDigits x.ip ++
        (if x.frac = [] then [] else 46 :: x.frac.map (fun d => 48 + d.val)),
        by simp [FiniteFloat.bytes, hneg], Or.inl rfl⟩
    · obtain ⟨d, t, heq, hd1, hd2, _⟩ := natDigits_head (x.ip + 1) x.ip (by omega)
      have heq' : natDigits x.ip = d :: t := heq
      refine ⟨d, t ++ (if x.frac = [] then [] else 46 :: x.frac.map (fun d => 48 + d.val)),
        ?_, Or.inr ⟨hd1, hd2⟩⟩
      simp only [FiniteFloat.bytes, if_neg hneg, List.nil_append, heq', List.cons_append]
  | .jarr .nil, fuel, rest, hf, hrest => by
    obtain ⟨f, rfl⟩ : ∃ f, fuel = f + 1 := ⟨fuel - 1, by simp [steps] at hf; omega⟩
    show parseValue (f + 1) ((91 :: (renderList .nil ++ [93])) ++ rest) = some rest
    have hshape : (91 :: (renderList .nil ++ [93])) ++ rest = 91 :: (93 :: rest) := by
      simp [renderList]
    rw [hshape]
    simp [parseValue, skipWs, List.dropWhile_cons, isWsB]
  | .jarr (.cons v t), fuel, rest, hf, hrest => by
    obtain ⟨f, rfl⟩ : ∃ f, fuel = f + 1 := ⟨fuel - 1, by simp [steps] at hf; omega⟩
    have hfl : stepsList (.cons v t) ≤ f := by simp [steps] at hf; omega
    show parseValue (f + 1) ((91 :: (renderList (.cons v t) ++ [93])) ++ rest) = some rest
    have hshape : (91 :: (renderList (.cons v t) ++ [93])) ++ rest =
        91 :: (renderList (.cons v t) ++ 93 :: rest) := by simp
    rw [hshape]
    simp only [parseValue]
    obtain ⟨h, tv, hveq, hws, hc44, hc93, hc125⟩ := renderVal_head v
    have hlshape : renderList (.cons v t) ++ 93 :: rest =
        h :: (tv ++ (renderListTail t ++ 93 :: rest)) := by
      show (renderVal v ++ renderListTail t) ++ 93 :: rest = _
      rw [hveq]
      simp [List.append_assoc]
    rw [hlshape, skipWs_not h _ hws]
    dsimp only
    rw [if_neg hc93, ← hlshape]
    exact ppElems v t f rest hfl
  | .jobj .nil, fuel, rest, hf, hrest => by
    obtain ⟨f, rfl⟩ : ∃ f, fuel = f + 1 := ⟨fuel - 1, by simp [steps] at hf; omega⟩
    show parseValue (f + 1) ((123 :: (renderMembers .nil ++ [125])) ++ rest) = some rest
    have hshape : (123 :: (renderMembers .nil ++ [125])) ++ rest = 123 :: (125 :: rest) := by
      simp [renderMembers]
    rw [hshape]
    simp [parseValue, skipWs, List.dropWhile_cons, isWsB]
  | .jobj (.cons k v t), fuel, rest, hf, hrest => by
    obtain ⟨f, rfl⟩ : ∃ f, fuel = f + 1 := ⟨fuel - 1, by simp [steps] at hf; omega⟩
    have hfm : stepsMembers (.cons k v t) ≤ f := by simp [steps] at hf; omega
    show parseValue (f + 1) ((123 :: (renderMembers (.cons k v t) ++ [125])) ++ rest) =
      some rest
    have hshape : (123 :: (renderMembers (.cons k v t) ++ [125])) ++ rest =
        123 :: (renderMembers (.cons k v t) ++ 125 :: rest) := by simp
    rw [hshape]
    simp only [parseValue]
    have hmshape : renderMembers (.cons k v t) ++ 125 :: rest =
        34 :: ((escapeSimple k ++ 34 :: 58 :: (renderVal v ++ renderMembersTail t)) ++
          125 :: rest) := rfl
    rw [hmshape, skipWs_not 34 _ (by decide)]
    dsimp only
    rw [if_neg (by decide), ← hmshape]
    exact ppMembers k v t f rest hfm
termination_by v _ _ _ _ => steps v
decreasing_by
  all_goals simp_wf
  all_goals first
    | exact stepsList_lt_jarr _
    | exact stepsMembers_lt_jobj _
    | exact steps_lt_stepsList _ _
    | exact stepsList_tail_lt _ _
    | exact steps_lt_stepsMembers _ _ _
    | exact stepsMembers_tail_lt _ _ _

/-- The validator consumes a rendered nonempty element list up to and
including the closing bracket. -/
theorem ppElems : ∀ (v : JVal) (t : JList) (fuel : Nat) (rest : List Nat),
    stepsList (.cons v t) ≤ fuel →
    parseElems fuel (renderList (.cons v t) ++ 93 :: rest) = some rest
  | v, .nil, fuel, rest, hf => by
    obtain ⟨f, rfl⟩ : ∃ f, fuel = f + 1 := ⟨fuel - 1, by simp [stepsList] at hf; omega⟩
    have hsv : steps v ≤ f := by simp [stepsList] at hf; omega
    simp only [parseElems]
    have hshape : renderList (.cons v .nil) ++ 93 :: rest =
        renderVal v ++ (renderListTail .nil ++ 93 :: rest) := by
      show (renderVal v ++ renderListTail .nil) ++ 93 :: rest = _
      simp [List.append_assoc]
    rw [hshape]
    obtain ⟨h, tv, hveq, hws, _, _, _⟩ := renderVal_head v
    have hskip : skipWs (renderVal v ++ (renderListTail .nil ++ 93 :: rest)) =
        renderVal v ++ (renderListTail .nil ++ 93 :: rest) := by
      rw [hveq, List.cons_append, skipWs_not h _ hws, ← List.cons_append]
    rw [hskip]
    have htail : renderListTail JList.nil ++ 93 :: rest = 93 :: rest := by
      simp [renderListTail]
    rw [htail, ppVal v f (93 :: rest) hsv (numOk_cons 93 rest (by tauto))]
    dsimp only
    rw [skipWs_not 93 rest (by decide)]
    show (if (93 : Nat) = 44 then parseElems f (skipWs rest)
      else if (93 : Nat) = 93 then some rest else none) = some rest
    norm_num
  | v, .cons v' t', fuel, rest, hf => by
    obtain ⟨f, rfl⟩ : ∃ f, fuel = f + 1 := ⟨fuel - 1, by simp [stepsList] at hf; omega⟩
    have hsv : steps v ≤ f := by simp [stepsList] at hf; omega
    have hst : stepsList (JList.cons v' t') ≤ f := by
      simp [stepsList] at hf ⊢; omega
    simp only [parseElems]
    have hshape : renderList (.cons v (.cons v' t')) ++ 93 :: rest =
        renderVal v ++ (renderListTail (.cons v' t') ++ 93 :: rest) := by
      show (renderVal v ++ renderListTail (.cons v' t')) ++ 93 :: rest = _
      simp [List.append_assoc]
    rw [hshape]
    obtain ⟨h, tv, hveq, hws, _, _, _⟩ := renderVal_head v
    have hskip : skipWs (renderVal v ++ (renderListTail (.cons v' t') ++ 93 :: rest)) =
        renderVal v ++ (renderListTail (.cons v' t') ++ 93 :: rest) := by
      rw [hveq, List.cons_append, skipWs_not h _ hws, ← List.cons_append]
    rw [hskip]
    rw [renderListTail_cons, List.cons_append,
      ppVal v f _ hsv (numOk_cons 44 _ (by tauto))]
    dsimp only
    rw [skipWs_not 44 _ (by decide)]
    show (if (44 : Nat) = 44 then
        parseElems f (skipWs (renderList (.cons v' t') ++ 93 :: rest))
      else if (44 : Nat) = 93 then some (renderList (.cons v' t') ++ 93 :: rest)
      else none) = some rest
    rw [if_pos rfl]
    obtain ⟨h', tv', hveq', hws', _, _, _⟩ := renderVal_head v'
    have hskip' : skipWs (renderList (.cons v' t') ++ 93 :: rest) =
        renderList (.cons v' t') ++ 93 :: rest := by
      have hsh : renderList (.cons v' t') ++ 93 :: rest =
          h' :: (tv' ++ (renderListTail t' ++ 93 :: rest)) := by
        show (renderVal v' ++ renderListTail t') ++ 93 :: rest = _
        rw [hveq']
        simp [List.append_assoc]
      rw [hsh, skipWs_not h' _ hws']
    rw [hskip']
    exact ppElems v' t' f rest hst
termination_by v t _ _ _ => stepsList (JList.cons v t)
decreasing_by
  all_goals simp_wf
  all_goals first
    | exact stepsList_lt_jarr _
    | exact stepsMembers_lt_jobj _
    | exact steps_lt_stepsList _ _
    | exact stepsList_tail_lt _ _
    | exact steps_lt_stepsMembers _ _ _
    | exact stepsMembers_tail_lt _ _ _

/-- The validator consumes a rendered nonempty member list up to and
including the closing brace. -/
theorem ppMembers : ∀ (k : List Nat) (v : JVal) (t : JMembers) (fuel : Nat) (rest : List Nat),
    stepsMembers (.cons k v t) ≤ fuel →
    parseMembers fuel (renderMembers (.cons k v t) ++ 125 :: rest) = some rest
  | k, v, .nil, fuel, rest, hf => by
    obtain ⟨f, rfl⟩ : ∃ f, fuel = f + 1 := ⟨fuel - 1, by simp [stepsMembers] at hf; omega⟩
    have hsv : steps v ≤ f := by simp [stepsMembers] at hf; omega
    have hmshape : renderMembers (.cons k v .nil) ++ 125 :: rest =
        34 :: (escapeSimple k ++ 34 :: (58 :: (renderVal v ++
          (renderMembersTail .nil ++ 125 :: rest)))) := by
      show (34 :: (escapeSimple k ++ 34 :: 58 :: (renderVal v ++ renderMembersTail .nil))) ++
        125 :: rest = _
      simp [List.append_assoc]
    rw [hmshape]
    simp only [parseMembers]
    rw [parseStr_escapeSimple k.length k (le_refl _) _]
    dsimp only
    rw [skipWs_not 58 _ (by decide)]
    dsimp only
    rw [if_pos rfl]
    obtain ⟨h, tv, hveq, hws, _, _, _⟩ := renderVal_head v
    have hskip : skipWs (renderVal v ++ (renderMembersTail .nil ++ 125 :: rest)) =
        renderVal v ++ (renderMembersTail .nil ++ 125 :: rest) := by
      rw [hveq, List.cons_append, skipWs_not h _ hws, ← List.cons_append]
    rw [hskip]
    have htail : renderMembersTail JMembers.nil ++ 125 :: rest = 125 :: rest := by
      simp [renderMembersTail]
    rw [htail, ppVal v f (125 :: rest) hsv (numOk_cons 125 rest (by tauto))]
    dsimp only
    rw [skipWs_not 125 rest (by decide)]
    show (if (125 : Nat) = 44 then parseMembers f (skipWs rest)
      else if (125 : Nat) = 125 then some rest else none) = some rest
    norm_num
  | k, v, .cons k' v' t', fuel, rest, hf => by
    obtain ⟨f, rfl⟩ : ∃ f, fuel = f + 1 := ⟨fuel - 1, by simp [stepsMembers] at hf; omega⟩
    have hsv : steps v ≤ f := by simp [stepsMembers] at hf; omega
    have hst : stepsMembers (JMembers.cons k' v' t') ≤ f := by
      simp [stepsMembers] at hf ⊢; omega
    have hmshape : renderMembers (.cons k v (.cons k' v' t')) ++ 125 :: rest =
        34 :: (escapeSimple k ++ 34 :: (58 :: (renderVal v ++
          (renderMembersTail (.cons k' v' t') ++ 125 :: rest)))) := by
      show (34 :: (escapeSimple k ++ 34 :: 58 :: (renderVal v ++
        renderMembersTail (.cons k' v' t')))) ++ 125 :: rest = _
      simp [List.append_assoc]
    rw [hmshape]
    simp only [parseMembers]
    rw [parseStr_escapeSimple k.length k (le_refl _) _]
    dsimp only
    rw [skipWs_not 58 _ (by decide)]
    dsimp only
    rw [if_pos rfl]
    obtain ⟨h, tv, hveq, hws, _, _, _⟩ := renderVal_head v
    have hskip : skipWs (renderVal v ++ (renderMembersTail (.cons k' v' t') ++ 125 :: rest)) =
        renderVal v ++ (renderMembersTail (.cons k' v' t') ++ 125 :: rest) := by
      rw [hveq, List.cons_append, skipWs_not h _ hws, ← List.cons_append]
    rw [hskip]
    rw [renderMembersTail_cons, List.cons_append,
      ppVal v f _ hsv (numOk_cons 44 _ (by tauto))]
    dsimp only
    rw [skipWs_not 44 _ (by decide)]
    show (if (44 : Nat) = 44 then
        parseMembers f (skipWs (renderMembers (.cons k' v' t') ++ 125 :: rest))
      else if (44 : Nat) = 125 then some (renderMembers (.cons k' v' t') ++ 125 :: rest)
      else none) = some rest
    rw [if_pos rfl]
    have hskip' : skipWs (renderMembers (.cons k' v' t') ++ 125 :: rest) =
        renderMembers (.cons k' v' t') ++ 125 :: rest := by
      have hsh : renderMembers (.cons k' v' t') ++ 125 :: rest =
          34 :: ((escapeSimple k' ++ 34 :: 58 :: (renderVal v' ++ renderMembersTail t')) ++
            125 :: rest) := rfl
      rw [hsh, skipWs_not 34 _ (by decide)]
    rw [hskip']
    exact ppMembers k' v' t' f rest hst
termination_by k v t _ _ => stepsMembers (JMembers.cons k v t)
decreasing_by
  all_goals simp_wf
  all_goals first
    | exact stepsList_lt_jarr _
    | exact stepsMembers_lt_jobj _
    | exact steps_lt_stepsList _ _
    | exact stepsList_tail_lt _ _
    | exact steps_lt_stepsMembers _ _ _
    | exact stepsMembers_tail_lt _ _ _

end

/-! ## Rendered documents: fuel bound, JSON validity, UTF-8 validity -/

theorem natDigits_ascii (n : Nat) : ∀ x ∈ natDigits n, x < 0x80 := fun x hx => by
  have := natDigits_digits (n + 1) n (Nat.lt_succ_self n) x hx
  omega

theorem appendInt_ascii (n : Int) : ∀ x ∈ appendInt [] n, x < 0x80 := by
  intro x hx
  unfold appendInt at hx
  split at hx
  · simp only [List.nil_append, List.mem_cons] at hx
    rcases hx with rfl | hx
    · omega
    · exact natDigits_ascii _ x hx
  · simp only [List.nil_append] at hx
    exact natDigits_ascii _ x hx

theorem fbytes_ascii (x : FiniteFloat) : ∀ b ∈ x.bytes, b < 0x80 := by
  intro b hb
  unfold FiniteFloat.bytes at hb
  simp only [List.mem_append] at hb
  rcases hb with (hb | hb) | hb
  · by_cases hneg : x.neg
    · rw [if_pos hneg] at hb
      simp at hb
      omega
    · rw [if_neg hneg] at hb
      simp at hb
  · exact natDigits_ascii _ b hb
  · by_cases hfr : x.frac = []
    · rw [if_pos hfr] at hb
      simp at hb
    · rw [if_neg hfr] at hb
      simp only [List.mem_cons, List.mem_map] at hb
      rcases hb with rfl | ⟨d, _, rfl⟩
      · omega
      · have := d.isLt
        omega

mutual

/-- Prepending a rendered value never affects UTF-8 validity of what
follows: rendered values are self-contained valid UTF-8. -/
theorem utf8Valid_renderVal_append : ∀ (v : JVal) (u : List Nat),
    utf8Valid (renderVal v ++ u) = utf8Valid u
  | .jnull, u => utf8Valid_ascii_append _ (by decide) u
  | .jbool b, u => by
    cases b
    · exact utf8Valid_ascii_append _ (by decide) u
    · exact utf8Valid_ascii_append _ (by decide) u
  | .jint n, u => utf8Valid_ascii_append _ (appendInt_ascii n) u
  | .juint n, u => utf8Valid_ascii_append _ (natDigits_ascii n) u
  | .jfloat f, u => by
    cases f with
    | nan => exact utf8Valid_ascii_append _ (by decide) u
    | posInf => exact utf8Valid_ascii_append _ (by decide) u
    | negInf => exact utf8Valid_ascii_append _ (by decide) u
    | finite x =>
      show utf8Valid (([] ++ x.bytes) ++ u) = utf8Valid u
      exact utf8Valid_ascii_append _ (by simpa using fbytes_ascii x) u
  | .jstr s, u => by
    show utf8Valid ((34 :: (escapeSimple s ++ [34])) ++ u) = utf8Valid u
    rw [List.cons_append, utf8Valid_ascii_cons 34 _ (by omega), List.append_assoc,
      utf8Valid_append (escapeSimple s).length (escapeSimple s) _ (le_refl _)
        (utf8Valid_escapeSimple s.length s (le_refl _))]
    exact utf8Valid_ascii_append _ (by decide) u
  | .jarr es, u => by
    show utf8Valid ((91 :: (renderList es ++ [93])) ++ u) = utf8Valid u
    rw [List.cons_append, utf8Valid_ascii_cons 91 _ (by omega), List.append_assoc,
      utf8Valid_renderList_append es ([93] ++ u)]
    exact utf8Valid_ascii_append _ (by decide) u
  | .jobj ms, u => by
    show utf8Valid ((123 :: (renderMembers ms ++ [125])) ++ u) = utf8Valid u
    rw [List.cons_append, utf8Valid_ascii_cons 123 _ (by omega), List.append_assoc,
      utf8Valid_renderMembers_append ms ([125] ++ u)]
    exact utf8Valid_ascii_append _ (by decide) u

/-- Prepending a rendered element list never affects UTF-8 validity. -/
theorem utf8Valid_renderList_append : ∀ (es : JList) (u : List Nat),
    utf8Valid (renderList es ++ u) = utf8Valid u
  | .nil, u => by rw [show renderList .nil = [] from rfl, List.nil_append]
  | .cons v t, u => by
    show utf8Valid ((renderVal v ++ renderListTail t) ++ u) = utf8Valid u
    rw [List.append_assoc, utf8Valid_renderVal_append v _,
      utf8Valid_renderListTail_append t u]

/-- Prepending a rendered comma-led element tail never affects validity. -/
theorem utf8Valid_renderListTail_append : ∀ (es : JList) (u : List Nat),
    utf8Valid (renderListTail es ++ u) = utf8Valid u
  | .nil, u => by rw [show renderListTail .nil = [] from rfl, List.nil_append]
  | .cons v t, u => by
    show utf8Valid ((44 :: (renderVal v ++ renderListTail t)) ++ u) = utf8Valid u
    rw [List.cons_append, utf8Valid_ascii_cons 44 _ (by omega), List.append_assoc,
      utf8Valid_renderVal_append v _, utf8Valid_renderListTail_append t u]

/-- Prepending a rendered member list never affects UTF-8 validity. -/
theorem utf8Valid_renderMembers_append : ∀ (ms : JMembers) (u : List Nat),
    utf8Valid (renderMembers ms ++ u) = utf8Valid u
  | .nil, u => by rw [show renderMembers .nil = [] from rfl, List.nil_append]
  | .cons k v t, u => by
    show utf8Valid
      ((34 :: (escapeSimple k ++ 34 :: 58 :: (renderVal v ++ renderMembersTail t))) ++ u) =
      utf8Valid u
    rw [List.cons_append, utf8Valid_ascii_cons 34 _ (by omega), List.append_assoc,
      utf8Valid_append (escapeSimple k).length (escapeSimple k) _ (le_refl _)
        (utf8Valid_escapeSimple k.length k (le_refl _)),
      List.cons_append, utf8Valid_ascii_cons 34 _ (by omega),
      List.cons_append, utf8Valid_ascii_cons 58 _ (by omega), List.append_assoc,
      utf8Valid_renderVal_append v _, utf8Valid_renderMembersTail_append t u]

/-- Prepending a rendered comma-led member tail never affects validity. -/
theorem utf8Valid_renderMembersTail_append : ∀ (ms : JMembers) (u : List Nat),
    utf8Valid (renderMembersTail ms ++ u) = utf8Valid u
  | .nil, u => by rw [show renderMembersTail .nil = [] from rfl, List.nil_append]
  | .cons k v t, u => by
    show utf8Valid
      ((44 :: 34 :: (escapeSimple k ++ 34 :: 58 :: (renderVal v ++ renderMembersTail t))) ++ u) =
      utf8Valid u
    rw [List.cons_append, utf8Valid_ascii_cons 44 _ (by omega),
      List.cons_append, utf8Valid_ascii_cons 34 _ (by omega), List.append_assoc,
      utf8Valid_append (escapeSimple k).length (escapeSimple k) _ (le_refl _)
        (utf8Valid_escapeSimple k.length k (le_refl _)),
      List.cons_append, utf8Valid_ascii_cons 34 _ (by omega),
      List.cons_append, utf8Valid_ascii_cons 58 _ (by omega), List.append_assoc,
      utf8Valid_renderVal_append v _, utf8Valid_renderMembersTail_append t u]

end

mutual

/-- The validator fuel needed on a rendered value is at most its length. -/
theorem steps_le_renderLen : ∀ v : JVal, steps v ≤ (renderVal v).length
  | .jnull => by simp [steps, renderVal]
  | .jbool b => by cases b <;> simp [steps, renderVal]
  | .jint n => by
    obtain ⟨h, t, heq, _, _, _, _⟩ := renderVal_head (.jint n)
    simp [steps, heq]
  | .juint n => by
    obtain ⟨h, t, heq, _, _, _, _⟩ := renderVal_head (.juint n)
    simp [steps, heq]
  | .jstr s => by
    simp only [steps, renderVal, List.length_cons, List.length_append]
    omega
  | .jfloat f => by
    obtain ⟨h, t, heq, _, _, _, _⟩ := renderVal_head (.jfloat f)
    simp [steps, heq]
  | .jarr es => by
    have h := stepsList_le_renderLen es
    simp only [steps, renderVal, List.length_cons, List.length_append, List.length_nil]
    omega
  | .jobj ms => by
    have h := stepsMembers_le_renderLen ms
    simp only [steps, renderVal, List.length_cons, List.length_append, List.length_nil]
    omega

/-- Fuel bound on a rendered element list. -/
theorem stepsList_le_renderLen : ∀ es : JList, stepsList es ≤ (renderList es).length + 1
  | .nil => by simp [stepsList, renderList]
  | .cons v t => by
    have h1 := steps_le_renderLen v
    have h2 := stepsList_le_renderLen t
    have h3 : stepsList t ≤ (renderListTail t).length + 1 := by
      cases t with
      | nil => simp [stepsList, renderListTail]
      | cons v' t' =>
        rw [renderListTail_cons]
        simp only [List.length_cons]
        omega
    obtain ⟨h, tl, heq, _, _, _, _⟩ := renderVal_head v
    have h4 : 1 ≤ (renderVal v).length := by rw [heq]; simp
    simp only [stepsList, renderList, List.length_append]
    omega

/-- Fuel bound on a rendered member list. -/
theorem stepsMembers_le_renderLen :
    ∀ ms : JMembers, stepsMembers ms ≤ (renderMembers ms).length + 1
  | .nil => by simp [stepsMembers, renderMembers]
  | .cons k v t => by
    have h1 := steps_le_renderLen v
    have h2 := stepsMembers_le_renderLen t
    have h3 : stepsMembers t ≤ (renderMembersTail t).length + 1 := by
      cases t with
      | nil => simp [stepsMembers, renderMembersTail]
      | cons k' v' t' =>
        rw [renderMembersTail_cons]
        simp only [List.length_cons]
        omega
    simp only [stepsMembers, renderMembers, List.length_append, List.length_cons]
    omega

end

/-- The rendered bytes of any abstract document validate as JSON. -/
theorem jsonValid_renderVal (v : JVal) : jsonValid (renderVal v) = true := by
  obtain ⟨h, t, heq, hws, _, _, _⟩ := renderVal_head v
  have hp : parseValue ((renderVal v).length + 1) (renderVal v ++ []) = some [] :=
    ppVal v _ [] (le_trans (steps_le_renderLen v) (Nat.le_succ _)) numOk_nil
  rw [List.append_nil] at hp
  have hskip : skipWs (renderVal v) = renderVal v := by
    rw [heq]; exact skipWs_not h t hws
  unfold jsonValid parseElement
  rw [hskip, hp]
  rfl

/-- The rendered bytes of any abstract document are valid UTF-8. -/
theorem utf8Valid_renderVal (v : JVal) : utf8Valid (renderVal v) = true := by
  have h := utf8Valid_renderVal_append v []
  rw [List.append_nil] at h
  rw [h]
  exact utf8Valid_nil


/-! ## Last-byte shape lemmas for the closing operations -/

theorem EndObject_open (X : List Nat) :
    EndObject (X ++ [123]) = some ((X ++ [123]) ++ [125, 44]) := by
  unfold EndObject
  rw [List.getLast?_concat]
  dsimp only
  rw [if_pos rfl]

theorem EndObject_overwrite (X : List Nat) (b : Nat) (hb : b ≠ 123) :
    EndObject (X ++ [b]) = some (X ++ [125, 44]) := by
  unfold EndObject
  rw [List.getLast?_concat]
  dsimp only
  rw [if_neg hb, List.dropLast_concat]

theorem EndArray_open (X : List Nat) :
    EndArray (X ++ [91]) = some ((X ++ [91]) ++ [93, 44]) := by
  unfold EndArray
  rw [List.getLast?_concat]
  dsimp only
  rw [if_pos rfl]

theorem EndArray_overwrite (X : List Nat) (b : Nat) (hb : b ≠ 91) :
    EndArray (X ++ [b]) = some (X ++ [93, 44]) := by
  unfold EndArray
  rw [List.getLast?_concat]
  dsimp only
  rw [if_neg hb, List.dropLast_concat]

theorem Build_open (X : List Nat) :
    Build (X ++ [123]) = some ((X ++ [123]) ++ [125]) := by
  unfold Build
  rw [List.getLast?_concat]
  dsimp only
  rw [if_neg (by simp)]

theorem Build_overwrite (X : List Nat) (b : Nat) (hb : b ≠ 123) :
    Build (X ++ [b]) = some (X ++ [125]) := by
  unfold Build
  rw [List.getLast?_concat]
  dsimp only
  rw [if_pos hb, List.dropLast_concat]

theorem NewObject_eq (buf : List Nat) : NewObject buf = [123] := by
  simp [NewObject]

/-! ## Base-buffer factoring of the encoders -/

theorem appendInt_base (buf : List Nat) (n : Int) :
    appendInt buf n = buf ++ appendInt [] n := by
  by_cases h : n < 0 <;> simp [appendInt, h]

theorem appendString_base (buf s : List Nat) :
    appendString buf s = buf ++ appendString [] s := by
  rw [appendString_eq, appendString_eq]
  simp

theorem appendFloat_base (buf : List Nat) (f : F64) :
    appendFloat buf f = buf ++ appendFloat [] f := by
  cases f with
  | nan => exact appendString_base buf _
  | posInf => exact appendString_base buf _
  | negInf => exact appendString_base buf _
  | finite x => simp [appendFloat]

/-! ## Structure of the generic array encoder -/

/-- The later elements of a rendered homogeneous array: each preceded by its
separating comma (the loop body of `appendArray`). -/
def sepElemsTail {α : Type} (enc : List Nat → α → List Nat) : List α → List Nat
  | [] => []
  | v :: t => 44 :: (enc [] v ++ sepElemsTail enc t)

/-- All elements of a rendered homogeneous array: the first one plain, each
later one preceded by a comma. -/
def sepElems {α : Type} (enc : List Nat → α → List Nat) : List α → List Nat
  | [] => []
  | v :: t => enc [] v ++ sepElemsTail enc t

theorem appendArray_foldl {α : Type} (enc : List Nat → α → List Nat)
    (henc : ∀ b v, enc b v = b ++ enc [] v) :
    ∀ (rest : List α) (acc : List Nat),
      rest.foldl (fun b x => enc (b ++ [44]) x) acc = acc ++ sepElemsTail enc rest
  | [], acc => by simp [sepElemsTail]
  | v :: t, acc => by
    simp only [List.foldl_cons]
    rw [appendArray_foldl enc henc t (enc (acc ++ [44]) v), henc (acc ++ [44]) v]
    simp [sepElemsTail, List.append_assoc]

theorem appendArray_eq {α : Type} (enc : List Nat → α → List Nat)
    (henc : ∀ b v, enc b v = b ++ enc [] v) (buf : List Nat) :
    ∀ vals : List α, appendArray buf vals enc = buf ++ 91 :: (sepElems enc vals ++ [93])
  | [] => by simp [appendArray, sepElems]
  | v :: rest => by
    simp only [appendArray]
    rw [appendArray_foldl enc henc rest _, henc (buf ++ [91]) v]
    simp [sepElems, List.append_assoc]

/-! ## The builder call alphabet and the concrete call machine -/

/-- One builder method call: the key, value-writing and structural methods
of `Object` in src/fson.go.  The narrower integer and float methods
(`IntValue`, `Int8Value`, ..., `Float32Value`) are the 64-bit calls on the
width-converted value in the source, so the 64-bit constructors cover them;
the int/uint/float array variants keep their own constructors (their bodies
are the widening followed by the same element encoder).  Time values are
carried as the bytes `t.AppendFormat` produces and durations as the bytes
`Duration.String()` produces, exactly what the source passes on.  The
key-combined convenience methods (`Null(key)`, `String(key, v)`,
`Object(key)`, `Array(key)`, `Time(key, ...)`, ...) are literally `Key`
followed by the corresponding `*Value` / `Start*` call in the source, so
they are covered as those two-call sequences. -/
inductive Call where
  | key (k : List Nat)
  | nullValue
  | boolValue (b : Bool)
  | stringValue (s : List Nat)
  | int64Value (n : Int)
  | uint64Value (n : Nat)
  | float64Value (f : F64)
  | stringsValue (ss : List (List Nat))
  | ints64Value (ns : List Int)
  | intsValue (ns : List Int)
  | ints8Value (ns : List Int)
  | ints16Value (ns : List Int)
  | ints32Value (ns : List Int)
  | uints64Value (ns : List Nat)
  | uintsValue (ns : List Nat)
  | uints8Value (ns : List Nat)
  | uints16Value (ns : List Nat)
  | uints32Value (ns : List Nat)
  | floats64Value (fs : List F64)
  | floats32Value (fs : List F64)
  | boolsValue (bs : List Bool)
  | timeValue (formatted : List Nat)
  | timesValue (formatteds : List (List Nat))
  | durationValue (s : List Nat)
  | durationsValue (ss : List (List Nat))
  | startObject
  | endObject
  | startArray
  | endArray

/-- One builder call on the byte buffer, exactly as the source methods act
(`none` models the out-of-bounds panic of the closing methods). -/
def step (c : Call) (o : List Nat) : Option (List Nat) :=
  match c with
  | .key k => some (Key o k)
  | .nullValue => some (NullValue o)
  | .boolValue b => some (BoolValue o b)
  | .stringValue s => some (StringValue o s)
  | .int64Value n => some (Int64Value o n)
  | .uint64Value n => some (Uint64Value o n)
  | .float64Value f => some (Float64Value o f)
  | .stringsValue ss => some (StringsValue o ss)
  | .ints64Value ns => some (Ints64Value o ns)
  | .intsValue ns => some (IntsValue o ns)
  | .ints8Value ns => some (Ints8Value o ns)
  | .ints16Value ns => some (Ints16Value o ns)
  | .ints32Value ns => some (Ints32Value o ns)
  | .uints64Value ns => some (Uints64Value o ns)
  | .uintsValue ns => some (UintsValue o ns)
  | .uints8Value ns => some (Uints8Value o ns)
  | .uints16Value ns => some (Uints16Value o ns)
  | .uints32Value ns => some (Uints32Value o ns)
  | .floats64Value fs => some (Floats64Value o fs)
  | .floats32Value fs => some (Floats32Value o fs)
  | .boolsValue bs => some (BoolsValue o bs)
  | .timeValue fb => some (TimeValue o fb)
  | .timesValue fbs => some (TimesValue o fbs)
  | .durationValue ds => some (DurationValue o ds)
  | .durationsValue dss => some (DurationsValue o dss)
  | .startObject => some (StartObject o)
  | .startArray => some (StartArray o)
  | .endObject => EndObject o
  | .endArray => EndArray o

/-- Run a sequence of builder calls on the buffer. -/
def runCalls (cs : List Call) (o : List Nat) : Option (List Nat) :=
  match cs with
  | [] => some o
  | c :: rest =>
    match step c o with
    | none => none
    | some o' => runCalls rest o'

/-! ## Abstract builder states: a stack of open containers -/

/-- Append one element at the end of an element list. -/
def JList.snoc : JList → JVal → JList
  | .nil, v => .cons v .nil
  | .cons v' t, v => .cons v' (JList.snoc t v)

/-- Append one member at the end of a member list. -/
def JMembers.snoc : JMembers → List Nat → JVal → JMembers
  | .nil, k, v => .cons k v .nil
  | .cons k' v' t, k, v => .cons k' v' (JMembers.snoc t k v)

/-- The strings of a `StringsValue` call as an abstract element list. -/
def JList.ofStrs : List (List Nat) → JList
  | [] => .nil
  | s :: t => .cons (.jstr s) (JList.ofStrs t)

/-- The integers of an `Ints64Value` call as an abstract element list. -/
def JList.ofInts : List Int → JList
  | [] => .nil
  | n :: t => .cons (.jint n) (JList.ofInts t)

/-- The naturals of a `Uints64Value` call as an abstract element list. -/
def JList.ofUints : List Nat → JList
  | [] => .nil
  | n :: t => .cons (.juint n) (JList.ofUints t)

/-- The floats of a `Floats64Value` call as an abstract element list. -/
def JList.ofFloats : List F64 → JList
  | [] => .nil
  | f :: t => .cons (.jfloat f) (JList.ofFloats t)

/-- The booleans of a `BoolsValue` call as an abstract element list. -/
def JList.ofBools : List Bool → JList
  | [] => .nil
  | b :: t => .cons (.jbool b) (JList.ofBools t)

/-- Bytes that stand for themselves inside a JSON string literal: printable
ASCII other than the double quote and the backslash.  `appendTime` copies
the formatter's output between quotes with no escaping, so a time write is
only sound when its formatted bytes are of this form (as the bytes of every
standard named layout are); the escaping scan leaves such bytes unchanged. -/
def strSafe (s : List Nat) : Bool :=
  s.all fun b => decide (0x20 ≤ b ∧ b < 0x80 ∧ b ≠ 34 ∧ b ≠ 92)

theorem escapeSimple_strSafe : ∀ s : List Nat, strSafe s = true → escapeSimple s = s
  | [], _ => rfl
  | b :: t, h => by
    have h' := h
    simp only [strSafe, List.all_cons, Bool.and_eq_true, decide_eq_true_eq] at h'
    rw [escapeSimple_cons, if_neg (by omega),
      if_pos ⟨h'.1.1, h'.1.2.2.2, h'.1.2.2.1⟩,
      escapeSimple_strSafe t h'.2]

/-- The abstract JSON value a single value-writing call denotes (`none` for
the key and the structural calls). -/
def callVal : Call → Option JVal
  | .nullValue => some .jnull
  | .boolValue b => some (.jbool b)
  | .stringValue s => some (.jstr s)
  | .int64Value n => some (.jint n)
  | .uint64Value n => some (.juint n)
  | .float64Value f => some (.jfloat f)
  | .stringsValue ss => some (.jarr (JList.ofStrs ss))
  | .ints64Value ns => some (.jarr (JList.ofInts ns))
  | .intsValue ns => some (.jarr (JList.ofInts ns))
  | .ints8Value ns => some (.jarr (JList.ofInts ns))
  | .ints16Value ns => some (.jarr (JList.ofInts ns))
  | .ints32Value ns => some (.jarr (JList.ofInts ns))
  | .uints64Value ns => some (.jarr (JList.ofUints ns))
  | .uintsValue ns => some (.jarr (JList.ofUints ns))
  | .uints8Value ns => some (.jarr (JList.ofUints ns))
  | .uints16Value ns => some (.jarr (JList.ofUints ns))
  | .uints32Value ns => some (.jarr (JList.ofUints ns))
  | .floats64Value fs => some (.jarr (JList.ofFloats fs))
  | .floats32Value fs => some (.jarr (JList.ofFloats fs))
  | .boolsValue bs => some (.jarr (JList.ofBools bs))
  | .timeValue fb => if strSafe fb then some (.jstr fb) else none
  | .timesValue fbs => if fbs.all strSafe then some (.jarr (JList.ofStrs fbs)) else none
  | .durationValue ds => some (.jstr ds)
  | .durationsValue dss => some (.jarr (JList.ofStrs dss))
  | _ => none

/-- The bytes of one rendered object member (no separator). -/
def memberB (k : List Nat) (v : JVal) : List Nat :=
  34 :: (escapeSimple k ++ 34 :: 58 :: renderVal v)

/-- Members of a partially built object: every completed member is followed
by the comma the builder appended after its value. -/
def renderMembersC : JMembers → List Nat
  | .nil => []
  | .cons k v t => renderMembers (.cons k v t) ++ [44]

/-- Elements of a partially built array, each followed by its comma. -/
def renderListC : JList → List Nat
  | .nil => []
  | .cons v t => renderList (.cons v t) ++ [44]

/-- One open container on the builder's stack: an object with its completed
members and possibly a written key awaiting its value, or an array with its
completed elements. -/
inductive Frame where
  | fobj (ms : JMembers) (pending : Option (List Nat))
  | farr (es : JList)

/-- The bytes an open container has contributed to the buffer so far. -/
def renderFrame : Frame → List Nat
  | .fobj ms none => 123 :: renderMembersC ms
  | .fobj ms (some k) => 123 :: (renderMembersC ms ++ 34 :: (escapeSimple k ++ [34, 58]))
  | .farr es => 91 :: renderListC es

/-- The buffer contents of a stack of open containers (innermost first). -/
def renderStack : List Frame → List Nat
  | [] => []
  | f :: rest => renderStack rest ++ renderFrame f

/-- The abstract state machine of the spec (§4.2): which calls are
context-correct in which state, and how the document under construction
grows.  `none` is a call made out of context.  A time write whose formatted
bytes are not string-safe (`strSafe`) is also rejected: `appendTime` copies
them between the quotes unescaped, so such a call corrupts the string
literal (see the C1 counterexample). -/
def astep (c : Call) (st : List Frame) : Option (List Frame) :=
  match st with
  | [] => none
  | f :: rest =>
    match callVal c with
    | some v =>
      match f with
      | .fobj ms (some k) => some (.fobj (JMembers.snoc ms k v) none :: rest)
      | .farr es => some (.farr (JList.snoc es v) :: rest)
      | .fobj _ none => none
    | none =>
      match c, f, rest with
      | .key k, .fobj ms none, _ => some (.fobj ms (some k) :: rest)
      | .startObject, .fobj ms (some k), _ =>
        some (.fobj .nil none :: .fobj ms (some k) :: rest)
      | .startObject, .farr es, _ => some (.fobj .nil none :: .farr es :: rest)
      | .startArray, .fobj ms (some k), _ =>
        some (.farr .nil :: .fobj ms (some k) :: rest)
      | .startArray, .farr es, _ => some (.farr .nil :: .farr es :: rest)
      | .endObject, .fobj ms none, .fobj ms' (some k) :: rest' =>
        some (.fobj (JMembers.snoc ms' k (.jobj ms)) none :: rest')
      | .endObject, .fobj ms none, .farr es :: rest' =>
        some (.farr (JList.snoc es (.jobj ms)) :: rest')
      | .endArray, .farr es, .fobj ms' (some k) :: rest' =>
        some (.fobj (JMembers.snoc ms' k (.jarr es)) none :: rest')
      | .endArray, .farr es, .farr es' :: rest' =>
        some (.farr (JList.snoc es' (.jarr es)) :: rest')
      | _, _, _ => none

/-- Run a call sequence on the abstract machine. -/
def runAbstract (cs : List Call) (st : List Frame) : Option (List Frame) :=
  match cs with
  | [] => some st
  | c :: rest =>
    match astep c st with
    | none => none
    | some st' => runAbstract rest st'

/-- Following the claim's words, not the source: a sequence is well-nested
when every StartObject/EndObject and StartArray/EndArray are properly paired
and nested (a Dyck-language check over the two bracket kinds, ignoring all
other calls).  Used to compare the claimed hypothesis with the machine the
source actually implements. -/
def wellNestedFrom : List Call → List Bool → Bool
  | [], [] => true
  | [], _ :: _ => false
  | c :: rest, stk =>
    match c with
    | .startObject => wellNestedFrom rest (true :: stk)
    | .startArray => wellNestedFrom rest (false :: stk)
    | .endObject =>
      match stk with
      | true :: s => wellNestedFrom rest s
      | _ => false
    | .endArray =>
      match stk with
      | false :: s => wellNestedFrom rest s
      | _ => false
    | _ => wellNestedFrom rest stk

/-- Following the claim's words: well-nested from an empty bracket stack. -/
def wellNested (cs : List Call) : Bool := wellNestedFrom cs []

/-! ## Rendering equations for the abstract states -/

theorem renderMembers_memberB (k : List Nat) (v : JVal) (t : JMembers) :
    renderMembers (.cons k v t) = memberB k v ++ renderMembersTail t := by
  simp [renderMembers, memberB, List.cons_append, List.append_assoc]

theorem renderMembersTail_memberB (k : List Nat) (v : JVal) (t : JMembers) :
    renderMembersTail (.cons k v t) = 44 :: (memberB k v ++ renderMembersTail t) := by
  simp [renderMembersTail, memberB, List.cons_append, List.append_assoc]

theorem renderMembersTail_snoc :
    ∀ (t : JMembers) (k : List Nat) (v : JVal),
      renderMembersTail (JMembers.snoc t k v) = renderMembersTail t ++ 44 :: memberB k v
  | .nil, k, v => by
    simp [JMembers.snoc, renderMembersTail_memberB, renderMembersTail, memberB]
  | .cons k' v' t, k, v => by
    show renderMembersTail (.cons k' v' (JMembers.snoc t k v)) = _
    rw [renderMembersTail_memberB, renderMembersTail_snoc t k v,
      renderMembersTail_memberB]
    simp [List.append_assoc]

theorem renderMembersC_snoc (ms : JMembers) (k : List Nat) (v : JVal) :
    renderMembersC (JMembers.snoc ms k v) = renderMembersC ms ++ memberB k v ++ [44] := by
  cases ms with
  | nil =>
    show renderMembersC (.cons k v .nil) = _
    simp [renderMembersC, renderMembers_memberB, renderMembersTail]
  | cons k' v' t =>
    show renderMembersC (.cons k' v' (JMembers.snoc t k v)) = _
    simp only [renderMembersC, renderMembers_memberB, renderMembersTail_snoc]
    simp [List.append_assoc]

theorem renderListTail_snoc :
    ∀ (t : JList) (v : JVal),
      renderListTail (JList.snoc t v) = renderListTail t ++ 44 :: renderVal v
  | .nil, v => by
    show renderListTail (.cons v .nil) = _
    simp [renderListTail]
  | .cons v' t, v => by
    show renderListTail (.cons v' (JList.snoc t v)) = _
    rw [show ∀ w tt, renderListTail (.cons w tt) = 44 :: (renderVal w ++ renderListTail tt)
        from fun w tt => rfl,
      renderListTail_snoc t v,
      show ∀ w tt, renderListTail (.cons w tt) = 44 :: (renderVal w ++ renderListTail tt)
        from fun w tt => rfl]
    simp [List.append_assoc]

theorem renderListC_snoc (es : JList) (v : JVal) :
    renderListC (JList.snoc es v) = renderListC es ++ renderVal v ++ [44] := by
  cases es with
  | nil =>
    show renderListC (.cons v .nil) = _
    simp [renderListC, renderList, renderListTail]
  | cons v' t =>
    show renderListC (.cons v' (JList.snoc t v)) = _
    simp only [renderListC, renderList, renderListTail_snoc]
    simp [List.append_assoc]

theorem renderStack_snoc_obj (ms : JMembers) (k : List Nat) (v : JVal)
    (rest : List Frame) :
    renderStack (.fobj (JMembers.snoc ms k v) none :: rest) =
      renderStack (.fobj ms (some k) :: rest) ++ (renderVal v ++ [44]) := by
  simp only [renderStack, renderFrame, renderMembersC_snoc, memberB]
  simp [List.append_assoc, List.cons_append]

theorem renderStack_snoc_arr (es : JList) (v : JVal) (rest : List Frame) :
    renderStack (.farr (JList.snoc es v) :: rest) =
      renderStack (.farr es :: rest) ++ (renderVal v ++ [44]) := by
  simp only [renderStack, renderFrame, renderListC_snoc]
  simp [List.append_assoc, List.cons_append]

/-! ## Bytes of a single value-writing call -/

theorem sepElemsTail_strs :
    ∀ ss : List (List Nat),
      sepElemsTail appendString ss = renderListTail (JList.ofStrs ss)
  | [] => rfl
  | s :: t => by
    show 44 :: (appendString [] s ++ sepElemsTail appendString t) =
      renderListTail (.cons (.jstr s) (JList.ofStrs t))
    rw [sepElemsTail_strs t, appendString_eq]
    show 44 :: (([] ++ 34 :: escapeSimple s ++ [34]) ++ _) =
      44 :: (renderVal (.jstr s) ++ _)
    simp [renderVal]

theorem sepElems_strs (ss : List (List Nat)) :
    sepElems appendString ss = renderList (JList.ofStrs ss) := by
  cases ss with
  | nil => rfl
  | cons s t =>
    show appendString [] s ++ sepElemsTail appendString t =
      renderList (.cons (.jstr s) (JList.ofStrs t))
    rw [sepElemsTail_strs t, appendString_eq]
    show ([] ++ 34 :: escapeSimple s ++ [34]) ++ _ = renderVal (.jstr s) ++ _
    simp [renderVal]

theorem sepElemsTail_ints :
    ∀ ns : List Int, sepElemsTail appendInt ns = renderListTail (JList.ofInts ns)
  | [] => rfl
  | n :: t => by
    show 44 :: (appendInt [] n ++ sepElemsTail appendInt t) =
      renderListTail (.cons (.jint n) (JList.ofInts t))
    rw [sepElemsTail_ints t]
    rfl

theorem sepElems_ints (ns : List Int) :
    sepElems appendInt ns = renderList (JList.ofInts ns) := by
  cases ns with
  | nil => rfl
  | cons n t =>
    show appendInt [] n ++ sepElemsTail appendInt t =
      renderList (.cons (.jint n) (JList.ofInts t))
    rw [sepElemsTail_ints t]
    rfl

theorem appendUint_base (buf : List Nat) (n : Nat) :
    appendUint buf n = buf ++ appendUint [] n := by
  simp [appendUint]

theorem appendBool_base (buf : List Nat) (b : Bool) :
    appendBool buf b = buf ++ appendBool [] b := by
  cases b <;> simp [appendBool]

theorem appendTime_base (buf f : List Nat) :
    appendTime buf f = buf ++ appendTime [] f := by
  simp [appendTime, List.append_assoc]

theorem sepElemsTail_uints :
    ∀ ns : List Nat, sepElemsTail appendUint ns = renderListTail (JList.ofUints ns)
  | [] => rfl
  | n :: t => by
    show 44 :: (appendUint [] n ++ sepElemsTail appendUint t) =
      renderListTail (.cons (.juint n) (JList.ofUints t))
    rw [sepElemsTail_uints t]
    rfl

theorem sepElems_uints (ns : List Nat) :
    sepElems appendUint ns = renderList (JList.ofUints ns) := by
  cases ns with
  | nil => rfl
  | cons n t =>
    show appendUint [] n ++ sepElemsTail appendUint t =
      renderList (.cons (.juint n) (JList.ofUints t))
    rw [sepElemsTail_uints t]
    rfl

theorem sepElemsTail_floats :
    ∀ fs : List F64, sepElemsTail appendFloat fs = renderListTail (JList.ofFloats fs)
  | [] => rfl
  | f :: t => by
    show 44 :: (appendFloat [] f ++ sepElemsTail appendFloat t) =
      renderListTail (.cons (.jfloat f) (JList.ofFloats t))
    rw [sepElemsTail_floats t]
    rfl

theorem sepElems_floats (fs : List F64) :
    sepElems appendFloat fs = renderList (JList.ofFloats fs) := by
  cases fs with
  | nil => rfl
  | cons f t =>
    show appendFloat [] f ++ sepElemsTail appendFloat t =
      renderList (.cons (.jfloat f) (JList.ofFloats t))
    rw [sepElemsTail_floats t]
    rfl

theorem sepElemsTail_bools :
    ∀ bs : List Bool, sepElemsTail appendBool bs = renderListTail (JList.ofBools bs)
  | [] => rfl
  | b :: t => by
    show 44 :: (appendBool [] b ++ sepElemsTail appendBool t) =
      renderListTail (.cons (.jbool b) (JList.ofBools t))
    rw [sepElemsTail_bools t]
    cases b <;> rfl

theorem sepElems_bools (bs : List Bool) :
    sepElems appendBool bs = renderList (JList.ofBools bs) := by
  cases bs with
  | nil => rfl
  | cons b t =>
    show appendBool [] b ++ sepElemsTail appendBool t =
      renderList (.cons (.jbool b) (JList.ofBools t))
    rw [sepElemsTail_bools t]
    cases b <;> rfl

theorem appendTime_safe (f : List Nat) (h : strSafe f = true) :
    appendTime [] f = renderVal (.jstr f) := by
  simp [appendTime, renderVal, escapeSimple_strSafe f h]

theorem sepElemsTail_times :
    ∀ fs : List (List Nat), (∀ f ∈ fs, strSafe f = true) →
      sepElemsTail appendTime fs = renderListTail (JList.ofStrs fs)
  | [], _ => rfl
  | f :: t, h => by
    show 44 :: (appendTime [] f ++ sepElemsTail appendTime t) =
      renderListTail (.cons (.jstr f) (JList.ofStrs t))
    rw [sepElemsTail_times t (fun x hx => h x (by simp [hx])),
      appendTime_safe f (h f (by simp))]
    rfl

theorem sepElems_times (fs : List (List Nat)) (h : ∀ f ∈ fs, strSafe f = true) :
    sepElems appendTime fs = renderList (JList.ofStrs fs) := by
  cases fs with
  | nil => rfl
  | cons f t =>
    show appendTime [] f ++ sepElemsTail appendTime t =
      renderList (.cons (.jstr f) (JList.ofStrs t))
    rw [sepElemsTail_times t (fun x hx => h x (by simp [hx])),
      appendTime_safe f (h f (by simp))]
    rfl

theorem step_callVal (c : Call) (v : JVal) (o : List Nat) (h : callVal c = some v) :
    step c o = some (o ++ (renderVal v ++ [44])) := by
  cases c with
  | key k => simp [callVal] at h
  | startObject => simp [callVal] at h
  | startArray => simp [callVal] at h
  | endObject => simp [callVal] at h
  | endArray => simp [callVal] at h
  | nullValue =>
    simp only [callVal, Option.some.injEq] at h
    subst h
    simp [step, NullValue, renderVal, List.append_assoc]
  | boolValue b =>
    simp only [callVal, Option.some.injEq] at h
    subst h
    cases b <;> simp [step, BoolValue, appendBool, renderVal, List.append_assoc]
  | stringValue str =>
    simp only [callVal, Option.some.injEq] at h
    subst h
    show some (appendString o str ++ [44]) = _
    rw [appendString_eq]
    simp [renderVal, List.append_assoc]
  | int64Value n =>
    simp only [callVal, Option.some.injEq] at h
    subst h
    show some (appendInt o n ++ [44]) = _
    rw [appendInt_base]
    simp [renderVal, List.append_assoc]
  | uint64Value n =>
    simp only [callVal, Option.some.injEq] at h
    subst h
    show some ((o ++ natDigits n) ++ [44]) = _
    simp [renderVal, List.append_assoc]
  | float64Value f =>
    simp only [callVal, Option.some.injEq] at h
    subst h
    show some (appendFloat o f ++ [44]) = _
    rw [appendFloat_base]
    simp [renderVal, List.append_assoc]
  | stringsValue ss =>
    simp only [callVal, Option.some.injEq] at h
    subst h
    show some (appendArray o ss appendString ++ [44]) = _
    rw [appendArray_eq appendString (fun b x => appendString_base b x) o ss,
      sepElems_strs]
    simp [renderVal, List.append_assoc, List.cons_append]
  | ints64Value ns =>
    simp only [callVal, Option.some.injEq] at h
    subst h
    show some (appendArray o ns appendInt ++ [44]) = _
    rw [appendArray_eq appendInt (fun b x => appendInt_base b x) o ns,
      sepElems_ints]
    simp [renderVal, List.append_assoc, List.cons_append]
  | intsValue ns =>
    simp only [callVal, Option.some.injEq] at h
    subst h
    show some (appendArray o ns appendInt ++ [44]) = _
    rw [appendArray_eq appendInt (fun b x => appendInt_base b x) o ns,
      sepElems_ints]
    simp [renderVal, List.append_assoc, List.cons_append]
  | ints8Value ns =>
    simp only [callVal, Option.some.injEq] at h
    subst h
    show some (appendArray o ns appendInt ++ [44]) = _
    rw [appendArray_eq appendInt (fun b x => appendInt_base b x) o ns,
      sepElems_ints]
    simp [renderVal, List.append_assoc, List.cons_append]
  | ints16Value ns =>
    simp only [callVal, Option.some.injEq] at h
    subst h
    show some (appendArray o ns appendInt ++ [44]) = _
    rw [appendArray_eq appendInt (fun b x => appendInt_base b x) o ns,
      sepElems_ints]
    simp [renderVal, List.append_assoc, List.cons_append]
  | ints32Value ns =>
    simp only [callVal, Option.some.injEq] at h
    subst h
    show some (appendArray o ns appendInt ++ [44]) = _
    rw [appendArray_eq appendInt (fun b x => appendInt_base b x) o ns,
      sepElems_ints]
    simp [renderVal, List.append_assoc, List.cons_append]
  | uints64Value ns =>
    simp only [callVal, Option.some.injEq] at h
    subst h
    show some (appendArray o ns appendUint ++ [44]) = _
    rw [appendArray_eq appendUint (fun b x => appendUint_base b x) o ns,
      sepElems_uints]
    simp [renderVal, List.append_assoc, List.cons_append]
  | uintsValue ns =>
    simp only [callVal, Option.some.injEq] at h
    subst h
    show some (appendArray o ns appendUint ++ [44]) = _
    rw [appendArray_eq appendUint (fun b x => appendUint_base b x) o ns,
      sepElems_uints]
    simp [renderVal, List.append_assoc, List.cons_append]
  | uints8Value ns =>
    simp only [callVal, Option.some.injEq] at h
    subst h
    show some (appendArray o ns appendUint ++ [44]) = _
    rw [appendArray_eq appendUint (fun b x => appendUint_base b x) o ns,
      sepElems_uints]
    simp [renderVal, List.append_assoc, List.cons_append]
  | uints16Value ns =>
    simp only [callVal, Option.some.injEq] at h
    subst h
    show some (appendArray o ns appendUint ++ [44]) = _
    rw [appendArray_eq appendUint (fun b x => appendUint_base b x) o ns,
      sepElems_uints]
    simp [renderVal, List.append_assoc, List.cons_append]
  | uints32Value ns =>
    simp only [callVal, Option.some.injEq] at h
    subst h
    show some (appendArray o ns appendUint ++ [44]) = _
    rw [appendArray_eq appendUint (fun b x => appendUint_base b x) o ns,
      sepElems_uints]
    simp [renderVal, List.append_assoc, List.cons_append]
  | floats64Value fs =>
    simp only [callVal, Option.some.injEq] at h
    subst h
    show some (appendArray o fs appendFloat ++ [44]) = _
    rw [appendArray_eq appendFloat (fun b x => appendFloat_base b x) o fs,
      sepElems_floats]
    simp [renderVal, List.append_assoc, List.cons_append]
  | floats32Value fs =>
    simp only [callVal, Option.some.injEq] at h
    subst h
    show some (appendArray o fs appendFloat ++ [44]) = _
    rw [appendArray_eq appendFloat (fun b x => appendFloat_base b x) o fs,
      sepElems_floats]
    simp [renderVal, List.append_assoc, List.cons_append]
  | boolsValue bs =>
    simp only [callVal, Option.some.injEq] at h
    subst h
    show some (appendArray o bs appendBool ++ [44]) = _
    rw [appendArray_eq appendBool (fun b x => appendBool_base b x) o bs,
      sepElems_bools]
    simp [renderVal, List.append_assoc, List.cons_append]
  | timeValue fb =>
    simp only [callVal] at h
    by_cases hs : strSafe fb = true
    · rw [if_pos hs] at h
      injection h with h
      subst h
      show some (appendTime o fb ++ [44]) = _
      rw [appendTime_base, appendTime_safe fb hs]
      simp [List.append_assoc]
    · rw [if_neg hs] at h
      exact absurd h (by simp)
  | timesValue fbs =>
    simp only [callVal] at h
    by_cases hs : fbs.all strSafe = true
    · rw [if_pos hs] at h
      injection h with h
      subst h
      show some (appendArray o fbs appendTime ++ [44]) = _
      rw [appendArray_eq appendTime (fun b x => appendTime_base b x) o fbs,
        sepElems_times fbs (by simpa [List.all_eq_true] using hs)]
      simp [renderVal, List.append_assoc, List.cons_append]
    · rw [if_neg hs] at h
      exact absurd h (by simp)
  | durationValue ds =>
    simp only [callVal, Option.some.injEq] at h
    subst h
    show some (appendString o ds ++ [44]) = _
    rw [appendString_eq]
    simp [renderVal, List.append_assoc]
  | durationsValue dss =>
    simp only [callVal, Option.some.injEq] at h
    subst h
    show some (appendArray o dss appendString ++ [44]) = _
    rw [appendArray_eq appendString (fun b x => appendString_base b x) o dss,
      sepElems_strs]
    simp [renderVal, List.append_assoc, List.cons_append]

/-! ## Closing an open container on the rendered buffer -/

theorem renderStack_close_obj (ms : JMembers) (R : List Frame) :
    EndObject (renderStack (.fobj ms none :: R)) =
      some (renderStack R ++ (renderVal (.jobj ms) ++ [44])) := by
  cases ms with
  | nil =>
    have hbuf : renderStack (Frame.fobj .nil none :: R) = renderStack R ++ [123] := by
      simp [renderStack, renderFrame, renderMembersC]
    rw [hbuf, EndObject_open]
    simp [renderVal, renderMembers, List.append_assoc]
  | cons k0 v0 t0 =>
    have hbuf : renderStack (Frame.fobj (.cons k0 v0 t0) none :: R) =
        (renderStack R ++ 123 :: renderMembers (.cons k0 v0 t0)) ++ [44] := by
      simp [renderStack, renderFrame, renderMembersC, List.append_assoc]
    rw [hbuf, EndObject_overwrite _ 44 (by decide)]
    simp [renderVal, List.append_assoc]

theorem renderStack_close_arr (es : JList) (R : List Frame) :
    EndArray (renderStack (.farr es :: R)) =
      some (renderStack R ++ (renderVal (.jarr es) ++ [44])) := by
  cases es with
  | nil =>
    have hbuf : renderStack (Frame.farr .nil :: R) = renderStack R ++ [91] := by
      simp [renderStack, renderFrame, renderListC]
    rw [hbuf, EndArray_open]
    simp [renderVal, renderList, List.append_assoc]
  | cons v0 t0 =>
    have hbuf : renderStack (Frame.farr (.cons v0 t0) :: R) =
        (renderStack R ++ 91 :: renderList (.cons v0 t0)) ++ [44] := by
      simp [renderStack, renderFrame, renderListC, List.append_assoc]
    rw [hbuf, EndArray_overwrite _ 44 (by decide)]
    simp [renderVal, List.append_assoc]

/-! ## Single-step simulation: the buffer tracks the abstract state -/

theorem astep_sim (c : Call) (st st' : List Frame) (h : astep c st = some st') :
    step c (renderStack st) = some (renderStack st') := by
  match st with
  | [] => simp [astep] at h
  | f :: rest =>
    cases hcv : callVal c with
    | some v =>
      cases f with
      | fobj ms pending =>
        cases pending with
        | none => simp [astep, hcv] at h
        | some k =>
          simp only [astep, hcv] at h
          injection h with h
          subst h
          rw [step_callVal c v _ hcv, renderStack_snoc_obj]
      | farr es =>
        simp only [astep, hcv] at h
        injection h with h
        subst h
        rw [step_callVal c v _ hcv, renderStack_snoc_arr]
    | none =>
      cases c with
      | nullValue => simp [callVal] at hcv
      | boolValue b => simp [callVal] at hcv
      | stringValue s => simp [callVal] at hcv
      | int64Value n => simp [callVal] at hcv
      | uint64Value n => simp [callVal] at hcv
      | float64Value f0 => simp [callVal] at hcv
      | stringsValue ss => simp [callVal] at hcv
      | ints64Value ns => simp [callVal] at hcv
      | intsValue ns => simp [callVal] at hcv
      | ints8Value ns => simp [callVal] at hcv
      | ints16Value ns => simp [callVal] at hcv
      | ints32Value ns => simp [callVal] at hcv
      | uints64Value ns => simp [callVal] at hcv
      | uintsValue ns => simp [callVal] at hcv
      | uints8Value ns => simp [callVal] at hcv
      | uints16Value ns => simp [callVal] at hcv
      | uints32Value ns => simp [callVal] at hcv
      | floats64Value fs => simp [callVal] at hcv
      | floats32Value fs => simp [callVal] at hcv
      | boolsValue bs => simp [callVal] at hcv
      | durationValue ds => simp [callVal] at hcv
      | durationsValue dss => simp [callVal] at hcv
      | timeValue fb =>
        cases f with
        | fobj ms pending => cases pending <;> simp [astep, hcv] at h
        | farr es => simp [astep, hcv] at h
      | timesValue fbs =>
        cases f with
        | fobj ms pending => cases pending <;> simp [astep, hcv] at h
        | farr es => simp [astep, hcv] at h
      | key k =>
        cases f with
        | farr es => simp [astep, callVal] at h
        | fobj ms pending =>
          cases pending with
          | some k' => simp [astep, callVal] at h
          | none =>
            simp only [astep, callVal] at h
            injection h with h
            subst h
            show some (Key _ k) = _
            unfold Key
            rw [appendString_eq]
            simp [renderStack, renderFrame, List.append_assoc, List.cons_append]
      | startObject =>
        cases f with
        | fobj ms pending =>
          cases pending with
          | none => simp [astep, callVal] at h
          | some k =>
            simp only [astep, callVal] at h
            injection h with h
            subst h
            show some (StartObject _) = _
            simp [StartObject, renderStack, renderFrame, renderMembersC,
              List.append_assoc]
        | farr es =>
          simp only [astep, callVal] at h
          injection h with h
          subst h
          show some (StartObject _) = _
          simp [StartObject, renderStack, renderFrame, renderMembersC,
            List.append_assoc]
      | startArray =>
        cases f with
        | fobj ms pending =>
          cases pending with
          | none => simp [astep, callVal] at h
          | some k =>
            simp only [astep, callVal] at h
            injection h with h
            subst h
            show some (StartArray _) = _
            simp [StartArray, renderStack, renderFrame, renderListC,
              List.append_assoc]
        | farr es =>
          simp only [astep, callVal] at h
          injection h with h
          subst h
          show some (StartArray _) = _
          simp [StartArray, renderStack, renderFrame, renderListC,
            List.append_assoc]
      | endObject =>
        cases f with
        | farr es => simp [astep, callVal] at h
        | fobj ms pending =>
          cases pending with
          | some k => simp [astep, callVal] at h
          | none =>
            cases rest with
            | nil => simp [astep, callVal] at h
            | cons p rest' =>
              cases p with
              | farr es =>
                simp only [astep, callVal] at h
                injection h with h
                subst h
                show EndObject _ = _
                rw [renderStack_close_obj ms (Frame.farr es :: rest'),
                  renderStack_snoc_arr]
              | fobj ms' pending' =>
                cases pending' with
                | none => simp [astep, callVal] at h
                | some k =>
                  simp only [astep, callVal] at h
                  injection h with h
                  subst h
                  show EndObject _ = _
                  rw [renderStack_close_obj ms (Frame.fobj ms' (some k) :: rest'),
                    renderStack_snoc_obj]
      | endArray =>
        cases f with
        | fobj ms pending => simp [astep, callVal] at h
        | farr es =>
          cases rest with
          | nil => simp [astep, callVal] at h
          | cons p rest' =>
            cases p with
            | farr es' =>
              simp only [astep, callVal] at h
              injection h with h
              subst h
              show EndArray _ = _
              rw [renderStack_close_arr es (Frame.farr es' :: rest'),
                renderStack_snoc_arr]
            | fobj ms' pending' =>
              cases pending' with
              | none => simp [astep, callVal] at h
              | some k =>
                simp only [astep, callVal] at h
                injection h with h
                subst h
                show EndArray _ = _
                rw [renderStack_close_arr es (Frame.fobj ms' (some k) :: rest'),
                  renderStack_snoc_obj]

/-- Run-level simulation: a context-correct call sequence drives the buffer
to the rendering of the abstract state it reaches. -/
theorem runCalls_sim : ∀ (cs : List Call) (st st' : List Frame),
    runAbstract cs st = some st' → runCalls cs (renderStack st) = some (renderStack st')
  | [], st, st', h => by
    simp only [runAbstract, Option.some.injEq] at h
    subst h
    rfl
  | c :: rest, st, st', h => by
    simp only [runAbstract] at h
    cases hstep : astep c st with
    | none => rw [hstep] at h; simp at h
    | some st1 =>
      rw [hstep] at h
      dsimp only at h
      simp only [runCalls, astep_sim c st st1 hstep]
      exact runCalls_sim rest st1 st' h

/-- `Build` on the rendering of a closed root object yields the document. -/
theorem Build_renderStack (ms : JMembers) :
    Build (renderStack [Frame.fobj ms none]) = some (renderVal (.jobj ms)) := by
  cases ms with
  | nil => decide
  | cons k v t =>
    have hbuf : renderStack [Frame.fobj (.cons k v t) none] =
        (123 :: renderMembers (.cons k v t)) ++ [44] := by
      simp [renderStack, renderFrame, renderMembersC, List.cons_append]
    rw [hbuf, Build_overwrite _ 44 (by decide)]
    simp [renderVal, List.cons_append]

/-! ## Totality of the builder operations from a fresh object -/

theorem step_total (c : Call) (o : List Nat) (ho : o ≠ []) :
    ∃ o', step c o = some o' ∧ o' ≠ [] := by
  cases c with
  | key k => exact ⟨_, rfl, by simp [Key]⟩
  | nullValue => exact ⟨_, rfl, by simp [NullValue]⟩
  | boolValue b => exact ⟨_, rfl, by cases b <;> simp [BoolValue, appendBool]⟩
  | stringValue str => exact ⟨_, rfl, by simp [StringValue]⟩
  | int64Value n => exact ⟨_, rfl, by simp [Int64Value]⟩
  | uint64Value n => exact ⟨_, rfl, by simp [Uint64Value]⟩
  | float64Value f => exact ⟨_, rfl, by simp [Float64Value]⟩
  | stringsValue ss => exact ⟨_, rfl, by simp [StringsValue]⟩
  | ints64Value ns => exact ⟨_, rfl, by simp [Ints64Value]⟩
  | intsValue ns => exact ⟨_, rfl, by simp [IntsValue]⟩
  | ints8Value ns => exact ⟨_, rfl, by simp [Ints8Value]⟩
  | ints16Value ns => exact ⟨_, rfl, by simp [Ints16Value]⟩
  | ints32Value ns => exact ⟨_, rfl, by simp [Ints32Value]⟩
  | uints64Value ns => exact ⟨_, rfl, by simp [Uints64Value]⟩
  | uintsValue ns => exact ⟨_, rfl, by simp [UintsValue]⟩
  | uints8Value ns => exact ⟨_, rfl, by simp [Uints8Value]⟩
  | uints16Value ns => exact ⟨_, rfl, by simp [Uints16Value]⟩
  | uints32Value ns => exact ⟨_, rfl, by simp [Uints32Value]⟩
  | floats64Value fs => exact ⟨_, rfl, by simp [Floats64Value]⟩
  | floats32Value fs => exact ⟨_, rfl, by simp [Floats32Value]⟩
  | boolsValue bs => exact ⟨_, rfl, by simp [BoolsValue]⟩
  | timeValue fb => exact ⟨_, rfl, by simp [TimeValue, appendTime]⟩
  | timesValue fbs => exact ⟨_, rfl, by simp [TimesValue]⟩
  | durationValue ds => exact ⟨_, rfl, by simp [DurationValue, StringValue]⟩
  | durationsValue dss => exact ⟨_, rfl, by simp [DurationsValue]⟩
  | startObject => exact ⟨_, rfl, by simp [StartObject]⟩
  | startArray => exact ⟨_, rfl, by simp [StartArray]⟩
  | endObject =>
    obtain ⟨X, b, rfl⟩ : ∃ X b, o = X ++ [b] := by
      rcases List.eq_nil_or_concat o with h | ⟨X, b, h⟩
      · exact absurd h ho
      · exact ⟨X, b, by simpa [List.concat_eq_append] using h⟩
    by_cases hb : b = 123
    · subst hb
      exact ⟨_, EndObject_open X, by simp⟩
    · exact ⟨_, EndObject_overwrite X b hb, by simp⟩
  | endArray =>
    obtain ⟨X, b, rfl⟩ : ∃ X b, o = X ++ [b] := by
      rcases List.eq_nil_or_concat o with h | ⟨X, b, h⟩
      · exact absurd h ho
      · exact ⟨X, b, by simpa [List.concat_eq_append] using h⟩
    by_cases hb : b = 91
    · subst hb
      exact ⟨_, EndArray_open X, by simp⟩
    · exact ⟨_, EndArray_overwrite X b hb, by simp⟩

theorem runCalls_total : ∀ (cs : List Call) (o : List Nat), o ≠ [] →
    ∃ out, runCalls cs o = some out ∧ out ≠ []
  | [], o, ho => ⟨o, rfl, ho⟩
  | c :: rest, o, ho => by
    obtain ⟨o', hs, ho'⟩ := step_total c o ho
    obtain ⟨out, hr, hout⟩ := runCalls_total rest o' ho'
    exact ⟨out, by simp [runCalls, hs, hr], hout⟩

/-! ## The buffer pool (src/unnamed/part_000) -/

/-- Embedding of `DefaultLowerBound`: 64KiB. -/
def DefaultLowerBound : Nat := 1 <<< 16

/-- Embedding of `PooledBuffer`: used length and capacity of the wrapped
byte slice, and the consecutive under-utilization strike counter. -/
structure PooledBuffer where
  len : Nat
  bufCap : Nat
  strikes : Nat
deriving DecidableEq

/-- Embedding of `Pool.Put`: `none` models the discarding early return,
`some` the buffer as recycled into the pool (strikes updated, contents
truncated to length zero by `o.buf = o.buf[:0]`). -/
def putDecision (lowerBound : Nat) (o : PooledBuffer) : Option PooledBuffer :=
  if o.bufCap ≤ lowerBound then some ⟨0, o.bufCap, 0⟩
  else if o.bufCap / 2 ≤ o.len then some ⟨0, o.bufCap, 0⟩
  else if o.strikes < 4 then some ⟨0, o.bufCap, o.strikes + 1⟩
  else none

/-! ## The claims -/

/-- Claim C1 (corrected).  The original claim fails: mere well-nestedness of
the Start/End calls is not enough (see the counterexample: the well-nested
`StartObject; EndObject` on a fresh object builds the invalid `{{}}`, and a
`Key; TimeValue` whose formatted time bytes contain a quote builds an
invalid document, because `appendTime` copies the formatter's output between
the quotes with no escaping).  Amended: for every call sequence accepted by
the abstract state machine — keys only where a key is expected, values only
after a key or inside an array, Start/End properly paired with the enclosing
container, the root object never closed by EndObject, and every time write's
formatted bytes string-safe (`strSafe`, as the standard named layouts
produce) — `Build()` output is parseable as valid JSON and is valid
UTF-8. -/
theorem claim_c1 (cs : List Call) (ms : JMembers) (buf : List Nat)
    (h : runAbstract cs [Frame.fobj .nil none] = some [Frame.fobj ms none]) :
    ∃ out, (runCalls cs (NewObject buf)).bind Build = some out ∧
      jsonValid out = true ∧ utf8Valid out = true := by
  have hrun := runCalls_sim cs _ _ h
  have hnew : NewObject buf = renderStack [Frame.fobj .nil none] := by
    simp [NewObject, renderStack, renderFrame, renderMembersC]
  refine ⟨renderVal (.jobj ms), ?_, jsonValid_renderVal _, utf8Valid_renderVal _⟩
  rw [hnew, hrun]
  show Build (renderStack [Frame.fobj ms none]) = _
  exact Build_renderStack ms

theorem claim_c1_witness :
    ∃ out, (runCalls [Call.key [97], Call.nullValue] (NewObject [])).bind Build =
        some out ∧ jsonValid out = true ∧ utf8Valid out = true :=
  claim_c1 [Call.key [97], Call.nullValue] (.cons [97] .jnull .nil) [] rfl

/-- Claim C1, counterexample to the original statement: the call sequence
`StartObject; EndObject` is well-nested in the claimed sense (properly
paired and nested Start/End calls), yet building it on a fresh object yields
the four bytes `{{}}`, which do not parse as JSON.  A second failure mode:
`Key "a"; TimeValue` with a double quote among the formatted time bytes is
context-correct for the claimed builder surface, yet builds an invalid
nine-byte document (open brace, quoted key, colon, three double quotes,
close brace) because `appendTime` copies the bytes unescaped — which is why
the amended machine also rejects unsafe time writes (last conjunct). -/
theorem claim_c1_counterexample :
    wellNested [Call.startObject, Call.endObject] = true ∧
    (runCalls [Call.startObject, Call.endObject] (NewObject [])).bind Build =
      some [123, 123, 125, 125] ∧
    jsonValid [123, 123, 125, 125] = false ∧
    (runCalls [Call.key [97], Call.timeValue [34]] (NewObject [])).bind Build =
      some [123, 34, 97, 34, 58, 34, 34, 34, 125] ∧
    jsonValid [123, 34, 97, 34, 58, 34, 34, 34, 125] = false ∧
    runAbstract [Call.key [97], Call.timeValue [34]] [Frame.fobj .nil none] = none := by
  refine ⟨by decide, by decide, by decide, by decide, by decide, rfl⟩

/-- Claim C2 (confirmed).  `EndObject`/`EndArray` follow the comma-overwrite
rule: with the matching open bracket as last byte they append the matching
close bracket (yielding the empty container), otherwise they overwrite the
final byte — the trailing comma — with it; both then append a comma. -/
theorem claim_c2 (X : List Nat) (b : Nat) (hbo : b ≠ 123) (hba : b ≠ 91) :
    EndObject (X ++ [123]) = some ((X ++ [123]) ++ [125, 44]) ∧
    EndArray (X ++ [91]) = some ((X ++ [91]) ++ [93, 44]) ∧
    EndObject (X ++ [b]) = some (X ++ [125, 44]) ∧
    EndArray (X ++ [b]) = some (X ++ [93, 44]) :=
  ⟨EndObject_open X, EndArray_open X, EndObject_overwrite X b hbo,
    EndArray_overwrite X b hba⟩

theorem claim_c2_witness :
    EndObject ([123] ++ [44]) = some ([123] ++ [125, 44]) ∧
    EndArray ([91] ++ [44]) = some ([91] ++ [93, 44]) :=
  ⟨(claim_c2 [123] 44 (by decide) (by decide)).2.2.1,
    (claim_c2 [91] 44 (by decide) (by decide)).2.2.2⟩

/-- Claim C3 (confirmed).  `Build` inspects only the last byte: a last byte
other than the open brace is overwritten — it is the trailing comma — with
the close brace; the open brace gets the close brace appended; and a fresh
`NewObject(buf).Build()` returns exactly the two bytes of the empty
object. -/
theorem claim_c3 (X buf : List Nat) (b : Nat) (hb : b ≠ 123) :
    Build (X ++ [b]) = some (X ++ [125]) ∧
    Build (X ++ [123]) = some ((X ++ [123]) ++ [125]) ∧
    Build (NewObject buf) = some [123, 125] := by
  refine ⟨Build_overwrite X b hb, Build_open X, ?_⟩
  rw [NewObject_eq]
  decide

theorem claim_c3_witness : Build ([] ++ [44]) = some ([] ++ [125]) :=
  (claim_c3 [] [] 44 (by decide)).1

/-- Claim C4 (confirmed).  The string encoder wraps its output in double
quotes and escapes per the table (quote, backslash, newline, carriage
return, tab, other control bytes as hex, invalid sequences as U+FFFD);
JSON-decoding the produced literal yields the input with each invalid
sequence replaced by U+FFFD (`sanitize`), hence valid UTF-8 input decodes to
itself exactly. -/
theorem claim_c4 (s : List Nat) (b : Nat) (hb : b < 0x20) (h10 : b ≠ 10)
    (h13 : b ≠ 13) (h9 : b ≠ 9) :
    appendString [] s = [34] ++ escapeSimple s ++ [34] ∧
    escByte 34 = [92, 34] ∧ escByte 92 = [92, 92] ∧
    escByte 10 = [92, 110] ∧ escByte 13 = [92, 114] ∧ escByte 9 = [92, 116] ∧
    escByte b = [92, 117, 48, 48, hexDigitByte (b / 16), hexDigitByte (b % 16)] ∧
    jsonDecodeString (appendString [] s) = some (sanitize s) ∧
    (utf8Valid s = true → jsonDecodeString (appendString [] s) = some s) := by
  have hdec : jsonDecodeString (appendString [] s) = some (sanitize s) := by
    have hshape : appendString [] s = 34 :: (escapeSimple s ++ [34]) := by
      rw [appendString_eq]
      simp
    have hps : parseStr (escapeSimple s ++ [34]) = some (sanitize s, []) :=
      parseStr_escapeSimple s.length s (le_refl _) []
    rw [hshape]
    show (match parseStr (escapeSimple s ++ [34]) with
      | some (content, []) => some content
      | _ => none) = some (sanitize s)
    rw [hps]
  refine ⟨by rw [appendString_eq]; simp, by decide, by decide, by decide,
    by decide, by decide, ?_, hdec, ?_⟩
  · unfold escByte
    rw [if_neg (by omega), if_neg h10, if_neg h13, if_neg h9]
  · intro hv
    have h8 := hdec
    rw [sanitize_of_utf8Valid s.length s (le_refl _) hv] at h8
    exact h8

theorem claim_c4_witness :
    ((1 : Nat) < 0x20 ∧ (1 : Nat) ≠ 10 ∧ (1 : Nat) ≠ 13 ∧ (1 : Nat) ≠ 9) ∧
    jsonDecodeString (appendString [] [104]) = some [104] :=
  ⟨by decide,
    (claim_c4 [104] 1 (by decide) (by decide) (by decide) (by decide)).2.2.2.2.2.2.2.2
      (by decide)⟩

/-- Claim C5 (confirmed; the finite-float decimal is modelled from the
documented contract of `strconv.AppendFloat`).  The float encoder renders
NaN and the infinities as the JSON strings "NaN", "+Inf", "-Inf" — strings,
not numbers — and a finite float as a fixed-notation JSON number whose
parsed numeric value is exactly the value the decimal denotes. -/
theorem claim_c5 (buf : List Nat) (x : FiniteFloat) (rest : List Nat)
    (hrest : numOk rest) :
    appendFloat buf .nan = buf ++ [34, 78, 97, 78, 34] ∧
    appendFloat buf .posInf = buf ++ [34, 43, 73, 110, 102, 34] ∧
    appendFloat buf .negInf = buf ++ [34, 45, 73, 110, 102, 34] ∧
    Float64Value buf (.finite x) = buf ++ x.bytes ++ [44] ∧
    parseNumberVal (appendFloat [] (.finite x) ++ rest) = some (x.val, rest) := by
  refine ⟨?_, ?_, ?_, ?_, ?_⟩
  · show appendString buf [78, 97, 78] = _
    rw [appendString_eq]
    simp [show escapeSimple [78, 97, 78] = [78, 97, 78] from rfl]
  · show appendString buf [43, 73, 110, 102] = _
    rw [appendString_eq]
    simp [show escapeSimple [43, 73, 110, 102] = [43, 73, 110, 102] from rfl]
  · show appendString buf [45, 73, 110, 102] = _
    rw [appendString_eq]
    simp [show escapeSimple [45, 73, 110, 102] = [45, 73, 110, 102] from rfl]
  · simp [Float64Value, appendFloat, List.append_assoc]
  · show parseNumberVal (([] ++ x.bytes) ++ rest) = _
    simpa using parseNumberVal_finite x rest hrest

theorem claim_c5_witness :
    parseNumberVal
        (appendFloat [] (.finite (FiniteFloat.mk false 1 [(5 : Fin 10)])) ++ []) =
      some ((FiniteFloat.mk false 1 [(5 : Fin 10)]).val, []) :=
  (claim_c5 [] (FiniteFloat.mk false 1 [(5 : Fin 10)]) [] numOk_nil).2.2.2.2

/-- Claim C6 (confirmed).  The generic array encoder emits `[]` immediately
on an empty slice; otherwise `[`, the first element, a comma before each
subsequent element, and `]` — N elements carry exactly N-1 separating commas
and no trailing comma. -/
theorem claim_c6 {α : Type} (buf : List Nat) (v : α) (rest : List α)
    (enc : List Nat → α → List Nat) (henc : ∀ b x, enc b x = b ++ enc [] x) :
    appendArray buf ([] : List α) enc = buf ++ [91, 93] ∧
    appendArray buf (v :: rest) enc =
      buf ++ [91] ++ (enc [] v ++ sepElemsTail enc rest) ++ [93] ∧
    sepElemsTail enc (v :: rest) = [44] ++ enc [] v ++ sepElemsTail enc rest := by
  refine ⟨by simp [appendArray], ?_, by simp [sepElemsTail]⟩
  rw [appendArray_eq enc henc buf (v :: rest)]
  simp [sepElems, List.append_assoc, List.cons_append]

theorem claim_c6_witness :
    appendArray [] [(1 : Int)] appendInt =
      [] ++ [91] ++ (appendInt [] 1 ++ sepElemsTail appendInt []) ++ [93] :=
  (claim_c6 [] (1 : Int) [] appendInt (fun b x => appendInt_base b x)).2.1

/-- Claim C7 (confirmed against the spec's description of `Reset`, whose
body is not among the source files).  `Reset` truncates the buffer and
appends the open brace — the post-reset buffer is exactly `{` — and a
subsequent call sequence behaves exactly as on a fresh object, independent
of the previous contents: nothing leaks. -/
theorem claim_c7 (o buf : List Nat) (cs : List Call) :
    Reset o = [123] ∧ Reset o = NewObject buf ∧
    runCalls cs (Reset o) = runCalls cs (NewObject buf) := by
  have h1 : Reset o = [123] := by simp [Reset]
  refine ⟨h1, ?_, ?_⟩
  · rw [h1, NewObject_eq]
  · rw [h1, NewObject_eq]

/-- Claim C8 (confirmed; "at least half its capacity" is the source's
integer comparison `cap/2 <= len`).  `Pool.Put` recycles with the strike
counter reset when the capacity is at most the lower bound (default 64KiB)
or utilization is at least half; otherwise it increments the counter while
below 4, and at 4 accumulated strikes the next under-utilized put discards
the buffer. -/
theorem claim_c8 (o : PooledBuffer) :
    DefaultLowerBound = 65536 ∧
    (o.bufCap ≤ DefaultLowerBound →
      putDecision DefaultLowerBound o = some ⟨0, o.bufCap, 0⟩) ∧
    (o.bufCap / 2 ≤ o.len →
      putDecision DefaultLowerBound o = some ⟨0, o.bufCap, 0⟩) ∧
    (DefaultLowerBound < o.bufCap → o.len < o.bufCap / 2 → o.strikes < 4 →
      putDecision DefaultLowerBound o = some ⟨0, o.bufCap, o.strikes + 1⟩) ∧
    (DefaultLowerBound < o.bufCap → o.len < o.bufCap / 2 → 4 ≤ o.strikes →
      putDecision DefaultLowerBound o = none) := by
  refine ⟨rfl, ?_, ?_, ?_, ?_⟩
  · intro h
    simp [putDecision, h]
  · intro h
    by_cases h0 : o.bufCap ≤ DefaultLowerBound
    · simp [putDecision, h0]
    · simp [putDecision, h0, h]
  · intro h0 h1 h2
    rw [putDecision, if_neg (by omega), if_neg (by omega), if_pos h2]
  · intro h0 h1 h2
    rw [putDecision, if_neg (by omega), if_neg (by omega), if_neg (by omega)]

theorem claim_c8_witness :
    putDecision DefaultLowerBound ⟨100, 200000, 1⟩ = some ⟨0, 200000, 2⟩ :=
  (claim_c8 ⟨100, 200000, 1⟩).2.2.2.1 (by decide) (by decide) (by decide)

/-- Claim C9 (confirmed).  Every narrower integer method and the float32
method produce exactly the bytes of the widest-width method on the
width-converted value: each is extensionally the 64-bit encoder. -/
theorem claim_c9 (o : List Nat) (n : Int) (m : Nat) (f : F64) :
    IntValue o n = Int64Value o n ∧ Int8Value o n = Int64Value o n ∧
    Int16Value o n = Int64Value o n ∧ Int32Value o n = Int64Value o n ∧
    UintValue o m = Uint64Value o m ∧ Uint8Value o m = Uint64Value o m ∧
    Uint16Value o m = Uint64Value o m ∧ Uint32Value o m = Uint64Value o m ∧
    Float32Value o f = Float64Value o f :=
  ⟨rfl, rfl, rfl, rfl, rfl, rfl, rfl, rfl, rfl⟩

/-- Claim C10 (corrected).  The original claim fails: a lone `EndArray` on a
fresh object leaves the buffer `],` whose first byte is not `{` (see the
counterexample).  Amended: after `NewObject` and after every sequence of
builder calls the buffer is non-empty — every operation either appends or
replaces the last byte and appends — so the unguarded `buf[len(buf)-1]`
accesses in `EndObject`, `EndArray` and `Build` are always in bounds and
never panic. -/
theorem claim_c10 (cs : List Call) (buf : List Nat) :
    ∃ out, runCalls cs (NewObject buf) = some out ∧ out ≠ [] := by
  rw [NewObject_eq]
  exact runCalls_total cs [123] (by simp)

/-- Claim C10, counterexample to the original statement: after the single
call `EndArray` on a fresh object the buffer is `],` — non-empty, but its
first byte is not the open brace. -/
theorem claim_c10_counterexample :
    runCalls [Call.endArray] (NewObject []) = some [93, 44] ∧
    [93, 44].head? = some 93 ∧ (93 : Nat) ≠ 123 := by
  decide

end Fson
